import Mathlib

/-!
Verification development for the FacebookGames verify-page extraction server
(`src/server/index.js`).  Strings are modelled as `List Char`; each JavaScript
function of the extraction core is translated into an executable Lean
definition.  Regular-expression operations are modelled by explicit scanners
whose behaviour matches the (deterministic) backtracking semantics of the
concrete patterns used by the source; the relevant semantics were checked
against a reference regex engine case by case.

The document model follows the design note of the spec (§9): a document is a
flat sequence of sibling nodes, each carrying its text content, a flag saying
whether it is an element (walked by `.next()`) and a flag saying whether its
tag is in the heading selector list.  The full-document text is the
newline-separated concatenation of the node texts (one node per source line,
the shape this page family has).
-/

namespace FBG

/-- ECMAScript whitespace class: `WhiteSpace ∪ LineTerminator`, the set used
both by `\s` in the source's regexes and by `String.prototype.trim`. -/
def jsWs (c : Char) : Bool :=
  c = ' ' || c = '\t' || c = '\n' || c = '\r' || c = '\u000B' || c = '\u000C' ||
  c = '\u00A0' || c = '\u1680' || (0x2000 ≤ c.toNat && c.toNat ≤ 0x200A) ||
  c = '\u2028' || c = '\u2029' || c = '\u202F' || c = '\u205F' || c = '\u3000' ||
  c = '\uFEFF'

/-- ASCII decimal digit, the `\d` class (the source's regexes use the `u`
flag, under which `\d` is exactly `[0-9]`, code points 48–57). -/
def isDigit (c : Char) : Bool :=
  48 ≤ c.toNat && c.toNat ≤ 57

/-- The three Unicode space variants that `norm` rewrites to an ordinary
space: U+00A0, U+202F, U+2007. -/
def isNbsp (c : Char) : Bool :=
  c = '\u00A0' || c = '\u202F' || c = '\u2007'

/-- One character step of the NBSP replacements in `norm`. -/
def replChar (c : Char) : Char :=
  if isNbsp c then ' ' else c

/-- The character class of `[ \t]` (the runs collapsed by `norm`). -/
def isSpaceTab (c : Char) : Bool :=
  c = ' ' || c = '\t'

/-- Model of `.replace(/[ \t]+/g, " ")`.  The `Bool` argument records whether
the previous input character belonged to the current space/tab run (in which
case the single replacement space has already been emitted). -/
def collapseAux : Bool → List Char → List Char
  | _, [] => []
  | inRun, c :: rest =>
    if isSpaceTab c then
      if inRun then collapseAux true rest
      else ' ' :: collapseAux true rest
    else c :: collapseAux false rest

def collapseSpaces (l : List Char) : List Char :=
  collapseAux false l

/-- `String.prototype.trimStart` over the ECMAScript whitespace class. -/
def trimStart (l : List Char) : List Char :=
  l.dropWhile jsWs

/-- `String.prototype.trimEnd` over the ECMAScript whitespace class. -/
def trimEnd (l : List Char) : List Char :=
  (l.reverse.dropWhile jsWs).reverse

/-- `String.prototype.trim`. -/
def jsTrim (l : List Char) : List Char :=
  trimEnd (trimStart l)

/-- `norm` from `src/server/index.js`: strip carriage returns, rewrite the
three NBSP variants to spaces, collapse space/tab runs, trim. -/
def norm (s : List Char) : List Char :=
  jsTrim (collapseSpaces ((s.filter (fun c => c ≠ '\r')).map replChar))

/-- Model of the replacement `v.replace(/^\d+\s+(?=\S)/, "")`: remove one
leading digit run followed by a whitespace run, but only when a non-whitespace
character follows (the lookahead).  The backtracking of the concrete pattern
is deterministic because `\d`, `\s` and `\S` are pairwise disjoint at the
boundaries, so maximal munch is forced. -/
def stripLeadIndex (v : List Char) : List Char :=
  let d := v.takeWhile isDigit
  let r1 := v.dropWhile isDigit
  let w := r1.takeWhile jsWs
  let r2 := r1.dropWhile jsWs
  if d ≠ [] ∧ w ≠ [] ∧ r2 ≠ [] then r2 else v

/-- `cleanName` from `extractNamesFromChunk` (the copy with the numeric-name
fix): normalize; keep pure digit strings verbatim; otherwise strip one
accidental leading index and trim. -/
def cleanName (s : List Char) : List Char :=
  let v := norm s
  if v ≠ [] ∧ v.all isDigit then v
  else jsTrim (stripLeadIndex v)

/-- Drop the maximal whitespace suffix (the `\s*` before `$`). -/
def dropTrailingWs (l : List Char) : List Char :=
  (l.reverse.dropWhile jsWs).reverse

/-- The last character of `t` that is not a newline, if any (scanning from
the right). -/
def lastNonNl (t : List Char) : Option Char :=
  match t.reverse.dropWhile (fun c => c = '\n') with
  | [] => none
  | c :: _ => some c

/-- Consume `\s*\d+\.` at the head of `l` (whitespace may include newlines,
as in the source's multiline scans); return the remainder after the dot.
Maximal munch is forced since `\s` and `\d` are disjoint and `.` is in
neither class. -/
def eatNumDot (l : List Char) : Option (List Char) :=
  let l1 := l.dropWhile jsWs
  let ds := l1.takeWhile isDigit
  let l2 := l1.dropWhile isDigit
  if ds = [] then none
  else
    match l2 with
    | c :: rest => if c = '.' then some rest else none
    | [] => none

/-- Given the whitespace run at the head of the text after a capture, return
the text from the match end onward: the match ends just before the last
newline of that run (so the next line remains available), or at the end of
the text when the run reaches it.  `S` is always `[]` or newline-headed at
its call site. -/
def restAfter (S : List Char) : List Char :=
  let run := S.takeWhile jsWs
  if run.reverse.dropWhile (fun c => c ≠ '\n') = [] then
    S.drop run.length
  else
    '\n' :: (run.reverse.takeWhile (fun c => c ≠ '\n')).reverse ++ S.drop run.length

/-- Model of `\s*(.+?)\s*$` (and the subsequent match end) on the remainder
`t` of the subject, in multiline mode: `\s` crosses newlines, `.` does not
match a newline, `$` holds at the end or before a newline.  Returns the
capture and the text from the match end onward.  In the degenerate case
where `t` is non-empty, all whitespace, the capture is the last non-newline
character of `t` and the match runs to the end. -/
def tailMatch (t : List Char) : Option (List Char × List Char) :=
  if t.dropWhile jsWs = [] then
    match lastNonNl t with
    | none => none
    | some c => some ([c], [])
  else
    some (dropTrailingWs ((t.dropWhile jsWs).takeWhile (fun c => c ≠ '\n')),
      restAfter ((t.dropWhile jsWs).drop
        (((t.dropWhile jsWs).takeWhile (fun c => c ≠ '\n')).length)))

/-- Whole-line match of `^\s*\d+\.\s*\d+\.\s*(.+?)\s*$` (`reTwoNums`),
returning the capture. -/
def matchTwoNums (line : List Char) : Option (List Char) :=
  match eatNumDot line with
  | none => none
  | some l1 =>
    match eatNumDot l1 with
    | none => none
    | some l2 => (tailMatch l2).map Prod.fst

/-- Whole-line match of `^\s*\d+\.\s*(.+?)\s*$` (`reOneNum`),
returning the capture. -/
def matchOneNum (line : List Char) : Option (List Char) :=
  match eatNumDot line with
  | none => none
  | some l1 => (tailMatch l1).map Prod.fst

/-- One attempt of the global multiline pattern
`^\s*\d+\.\s*\d+\.\s*(.+?)\s*$` (`lineRe`) at a line-start position;
returns the capture and the text from the match end onward. -/
def tryLineMatch (s : List Char) : Option (List Char × List Char) :=
  match eatNumDot s with
  | none => none
  | some l1 =>
    match eatNumDot l1 with
    | none => none
    | some l2 => tailMatch l2

/-- Drop through the first newline of `s` (moving the scanner to the next
line-start position); `none` when no newline remains. -/
def afterNextNl (s : List Char) : Option (List Char) :=
  match s.dropWhile (fun c => c ≠ '\n') with
  | [] => none
  | _ :: rest => some rest

/-- The global multiline scan `while ((lm = lineRe.exec(chunk)) !== null)`:
try the pattern at each line start in order; after a successful match resume
at the following line start (the match ends just before a newline or at the
end).  The fuel argument dominates the number of scanner steps; each step
strictly shortens the text, so `length + 1` steps always suffice. -/
def scanCaptures : Nat → List Char → List (List Char)
  | 0, _ => []
  | fuel + 1, s =>
    match tryLineMatch s with
    | some (cap, rest) => cap :: scanCaptures fuel (rest.drop 1)
    | none =>
      match afterNextNl s with
      | none => []
      | some s' => scanCaptures fuel s'

/-- `String.prototype.split("\n")` (keeps empty components). -/
def splitOnNl : List Char → List (List Char)
  | [] => [[]]
  | c :: rest =>
    if c = '\n' then [] :: splitOnNl rest
    else
      match splitOnNl rest with
      | [] => [[c]]
      | h :: t => (c :: h) :: t

/-- Does `pat` occur at the head of `t`, comparing ASCII letters
case-insensitively (the `i` flag)? -/
def startsWithCI : List Char → List Char → Bool
  | _, [] => true
  | [], _ :: _ => false
  | c :: cs, p :: ps => (c.toLower = p.toLower) && startsWithCI cs ps

/-- Case-insensitive substring test, e.g. `/Round #/i.test(candidate)`. -/
def containsCI (text pat : List Char) : Bool :=
  match text with
  | [] => pat.isEmpty
  | _ :: rest => startsWithCI text pat || containsCI rest pat

/-- The literal part of the round-heading pattern. -/
def litRoR : List Char := "Result of Round #".data

/-- `/Result of Round #\d+/i.test(t)`: the literal followed by at least one
digit, anywhere in `t`. -/
def headingTest : List Char → Bool
  | [] => false
  | c :: rest =>
    (startsWithCI (c :: rest) litRoR &&
      (match (c :: rest).drop litRoR.length with
       | d :: _ => isDigit d
       | [] => false)) ||
    headingTest rest

/-- Digits-to-number, `Number(m[1])` on a digit capture. -/
def digitsToNat (ds : List Char) : Nat :=
  ds.foldl (fun n c => n * 10 + (c.toNat - 48)) 0

/-- `t.match(/Result of Round #(\d+)/i)`: round number of the first
occurrence of the heading pattern in `t`, if any. -/
def firstHeadingNum : List Char → Option Nat
  | [] => none
  | c :: rest =>
    if startsWithCI (c :: rest) litRoR then
      let ds := ((c :: rest).drop litRoR.length).takeWhile isDigit
      if ds = [] then firstHeadingNum rest else some (digitsToNat ds)
    else firstHeadingNum rest

/-- Length consumed by the optional tail `(?:\s*–\s*FINAL)?` of the text-mode
heading pattern (en dash, then the literal `FINAL`, case-insensitive). -/
def finalLen (r : List Char) : Nat :=
  let w1 := r.takeWhile jsWs
  match r.drop w1.length with
  | '–' :: r1 =>
    let w2 := r1.takeWhile jsWs
    if startsWithCI (r1.drop w2.length) "FINAL".data then
      w1.length + 1 + w2.length + 5
    else 0
  | _ => 0

/-- Match of `/Result of Round #(\d+)(?:\s*–\s*FINAL)?/i` anchored at the
head of `t`: returns the captured round number and the match length. -/
def headingMatchAt (t : List Char) : Option (Nat × Nat) :=
  if startsWithCI t litRoR then
    let after := t.drop litRoR.length
    let ds := after.takeWhile isDigit
    if ds = [] then none
    else some (digitsToNat ds, litRoR.length + ds.length + finalLen (after.drop ds.length))
  else none

/-- The global scan `while ((m = headingRe.exec(text)) !== null)`: leftmost
non-overlapping matches, each recorded as `(character offset, round number)`.
Fuel as in `scanCaptures`. -/
def headingScanAux : Nat → List Char → Nat → List (Nat × Nat)
  | 0, _, _ => []
  | fuel + 1, t, off =>
    match t with
    | [] => []
    | _ :: rest =>
      match headingMatchAt t with
      | some (num, len) => (off, num) :: headingScanAux fuel (t.drop len) (off + len)
      | none => headingScanAux fuel rest (off + 1)

def headingScan (t : List Char) : List (Nat × Nat) :=
  headingScanAux (t.length + 1) t 0

/-- The per-line body of the loop in `extractNamesFromChunk`: try `reTwoNums`
(capture appended after cleaning when non-empty), else `reOneNum` (capture
appended after cleaning when non-empty and free of stray heading fragments). -/
def namesOfLine (line : List Char) : List (List Char) :=
  match matchTwoNums line with
  | some cap =>
    let nm := cleanName cap
    if nm ≠ [] then [nm] else []
  | none =>
    match matchOneNum line with
    | some cap =>
      let candidate := cleanName cap
      if candidate ≠ [] ∧
          containsCI candidate "Result of Round".data = false ∧
          containsCI candidate "Round #".data = false ∧
          containsCI candidate "Verification".data = false then
        [candidate]
      else []
    | none => []

def namesOfLines (lines : List (List Char)) : List (List Char) :=
  match lines with
  | [] => []
  | line :: rest => namesOfLine line ++ namesOfLines rest

/-- `extractNamesFromChunk` from `src/server/index.js`: split on newlines,
normalize and drop empty lines, then match each line against the two
patterns. -/
def extractNamesFromChunk (chunkText : List Char) : List (List Char) :=
  if chunkText = [] then []
  else namesOfLines (((splitOnNl chunkText).map norm).filter (fun l => l ≠ []))

/-- A round: number and ordered name list. -/
structure Round where
  round : Nat
  names : List (List Char)
  deriving DecidableEq, Repr

/-- The error taxonomy of the extraction core. -/
inductive PErr where
  | NoRoundsFound
  | NoNamesParsed
  | InvalidBottomCount
  deriving DecidableEq, Repr

/-- `rounds.sort((a, b) => a.round - b.round)`: stable ascending sort by
round number (`Array.prototype.sort` is stable, as is insertion sort). -/
def sortRounds (rs : List Round) : List Round :=
  rs.insertionSort (fun a b => a.round ≤ b.round)

/-- A sibling node of the parsed document: its text content, whether it is an
element (`.next()` walks only element siblings) and whether its tag is in the
selector list `h1, h2, h3, h4, h5, strong, b, p, div, span`. -/
structure BNode where
  isEl : Bool
  sel : Bool
  text : List Char
  deriving DecidableEq, Repr

/-- A document: its flat sequence of sibling nodes. -/
structure Doc where
  nodes : List BNode
  deriving DecidableEq, Repr

/-- Newline-separated concatenation. -/
def joinNl : List (List Char) → List Char
  | [] => []
  | [b] => b
  | b :: rest => b ++ '\n' :: joinNl rest

/-- `$("body").text()` for this document family: the node texts in order,
newline-separated (one node per source line). -/
def bodyText (d : Doc) : List Char :=
  joinNl (d.nodes.map BNode.text)

/-- The node qualifies as a round heading: selected element whose normalized
text matches the heading pattern. -/
def isHeadingNode (b : BNode) : Bool :=
  b.isEl && b.sel && headingTest (norm b.text)

/-- Indices of the heading nodes (`headingNodes`), in document order. -/
def headingIdxs (d : Doc) : List Nat :=
  (List.range d.nodes.length).filter
    (fun i => isHeadingNode (d.nodes.getD i ⟨false, false, []⟩))

/-- The sibling walk of `parseRandomOrgVerify`: starting after the heading,
visit each following element sibling (text nodes are skipped by `.next()`),
stop before one whose normalized text matches the heading pattern, and append
`"\n" + text` for each non-empty normalized text. -/
def chunkWalk : List BNode → List Char
  | [] => []
  | b :: rest =>
    if b.isEl then
      let t := norm b.text
      if headingTest t then []
      else (if t = [] then [] else '\n' :: t) ++ chunkWalk rest
    else chunkWalk rest

/-- The normalized chunk collected for the heading at node index `i`. -/
def chunkAt (d : Doc) (i : Nat) : List Char :=
  norm (chunkWalk (d.nodes.drop (i + 1)))

/-- The markup-mode rounds before the emptiness check and the sort: one
candidate per heading node, kept only when its chunk yields at least one
name.  `k` is the position in `headingNodes` (used by the defensive round
number fallback `i + 1`, dead in this model since the heading test guarantees
a digit capture). -/
def markupRoundAt (d : Doc) (k i : Nat) : Option Round :=
  let ht := norm ((d.nodes.getD i ⟨false, false, []⟩).text)
  let roundNum := (firstHeadingNum ht).getD (k + 1)
  let names := extractNamesFromChunk (chunkAt d i)
  if names = [] then none else some ⟨roundNum, names⟩

def rawRoundsMarkup (d : Doc) : List Round :=
  (headingIdxs d).enum.filterMap (fun p => markupRoundAt d p.1 p.2)

/-- The text-mode chunk for anchor `k` of `hs = headingScan t`: the normalized
slice from this anchor's offset to the next anchor's offset (or the end). -/
def textChunkAt (t : List Char) (hs : List (Nat × Nat)) (k : Nat) : List Char :=
  let start := (hs.getD k (0, 0)).1
  let stop := if k + 1 < hs.length then (hs.getD (k + 1) (0, 0)).1 else t.length
  norm ((t.drop start).take (stop - start))

/-- The per-chunk name list of `parseFromTextFallback`: every capture of the
global `lineRe` scan, normalized (the push guard `if (lm[1])` skips empty
captures). -/
def textNamesOfChunk (chunk : List Char) : List (List Char) :=
  (scanCaptures (chunk.length + 1) chunk).filterMap
    (fun cap => if cap = [] then none else some (norm cap))

def textRoundAt (t : List Char) (k : Nat) : Option Round :=
  let names := textNamesOfChunk (textChunkAt t (headingScan t) k)
  if names = [] then none
  else some ⟨((headingScan t).getD k (0, 0)).2, names⟩

/-- The text-mode rounds before the emptiness check and the sort. -/
def rawRoundsText (t : List Char) : List Round :=
  (List.range (headingScan t).length).filterMap (textRoundAt t)

/-- `parseFromTextFallback` from `src/server/index.js`. -/
def parseFromTextFallback (t : List Char) : Except PErr (List Round) :=
  if headingScan t = [] then .error .NoRoundsFound
  else
    let rs := rawRoundsText t
    if rs = [] then .error .NoNamesParsed
    else .ok (sortRounds rs)

/-- `parseRandomOrgVerify` from `src/server/index.js`: markup mode first;
with zero heading nodes fall back to the text scan of the body text (failing
with `NoRoundsFound` when the heading pattern is absent there too). -/
def parseRandomOrgVerify (d : Doc) : Except PErr (List Round) :=
  if headingIdxs d = [] then
    let t := norm (bodyText d)
    if headingTest t = false then .error .NoRoundsFound
    else parseFromTextFallback t
  else
    let rs := rawRoundsMarkup d
    if rs = [] then .error .NoNamesParsed
    else .ok (sortRounds rs)

/-- The spec's name for the core entry point. -/
def extractRounds (d : Doc) : Except PErr (List Round) :=
  parseRandomOrgVerify d

/-- Decimal digits of `n` (the template-literal rendering of a round
number). -/
def natDigitsAux : Nat → Nat → List Char
  | 0, _ => []
  | fuel + 1, n =>
    if n < 10 then [Char.ofNat (48 + n)]
    else natDigitsAux fuel (n / 10) ++ [Char.ofNat (48 + n % 10)]

def natStr (n : Nat) : List Char :=
  natDigitsAux (n + 1) n

/-- `.join(", ")`. -/
def joinComma : List (List Char) → List Char
  | [] => []
  | [x] => x
  | x :: rest => x ++ ',' :: ' ' :: joinComma rest

/-- `names.slice(-n)` for an index taken from `Math.min(bottomCount, len)`:
the last `n` elements (`slice(-0)` is the whole array). -/
def jsSliceLast (n : Nat) (l : List α) : List α :=
  if n = 0 then l else l.drop (l.length - n)

/-- The result record of `buildTwoLists`. -/
structure TwoLists where
  topList : List (List Char)
  bottomList : List (List Char)
  deriving DecidableEq, Repr

/-- The per-round loop body of `buildTwoLists` for an already-validated
integer `bottomCount = bc ≥ 1`: rounds with no names are skipped; otherwise
one top entry and one bottom entry are produced.  (`Number.isFinite(r.round)`
always holds for a natural round number, so the positional fallback `i + 1`
is dead in this model and the entry number is `r.round`.) -/
def twoListsPairs (bc : Nat) : List Round → List (List Char × List Char)
  | [] => []
  | r :: rest =>
    if r.names = [] then twoListsPairs bc rest
    else
      let num := natStr r.round
      let top := num ++ '.' :: ' ' :: r.names.headD []
      let n := min bc r.names.length
      let bottom := num ++ '.' :: ' ' :: joinComma (jsSliceLast n r.names)
      (top, bottom) :: twoListsPairs bc rest

/-- `buildTwoLists` from `src/server/index.js`.  The `bottomCount` argument
is a JavaScript number, modelled as a rational so that the
`Number.isInteger` guard is meaningful. -/
def buildTwoLists (rounds : List Round) (bottomCount : ℚ) : Except PErr TwoLists :=
  if ¬ (bottomCount.den = 1 ∧ 1 ≤ bottomCount) then .error .InvalidBottomCount
  else
    let pairs := twoListsPairs bottomCount.num.toNat rounds
    .ok ⟨pairs.map Prod.fst, pairs.map Prod.snd⟩

/-- `spotCounts[key] = (spotCounts[key] || 0) + 1` over a plain object:
an existing key keeps its position, a new key is appended. -/
def bumpCount (m : List (List Char × Nat)) (key : List Char) : List (List Char × Nat) :=
  match m with
  | [] => [(key, 1)]
  | (k, c) :: rest =>
    if k = key then (k, c + 1) :: rest else (k, c) :: bumpCount rest key

/-- The counting loop of `buildSpotCountsFromRound1`: normalize each raw
name, skip those that normalize to empty, count the rest. -/
def countNames (names : List (List Char)) : List (List Char × Nat) :=
  names.foldl
    (fun m raw =>
      let name := norm raw
      if name = [] then m else bumpCount m name)
    []

/-- The round selection of `buildSpotCountsFromRound1`:
`rounds.find(r => r && Number(r.round) === 1) || rounds[0]`. -/
def spotRound (rounds : List Round) : Option Round :=
  match rounds.find? (fun r => r.round = 1) with
  | some r1 => some r1
  | none =>
    match rounds with
    | [] => none
    | r :: _ => some r

/-- `buildSpotCountsFromRound1` from `src/server/index.js`. -/
def buildSpotCountsFromRound1 (rounds : List Round) : List (List Char × Nat) :=
  match spotRound rounds with
  | none => []
  | some r1 => countNames r1.names

/-! ### Properties of the text normalizer -/

/-- Adjacent characters never both belong to the collapsed `[ \t]` class. -/
def sepRel (a b : Char) : Prop :=
  isSpaceTab a = false ∨ isSpaceTab b = false

/-- The invariants characterizing the image of `norm`: no carriage return,
no NBSP variant, no tab, no two adjacent space/tab characters, and
non-whitespace (or absent) first and last characters. -/
def normed (l : List Char) : Prop :=
  (∀ c ∈ l, c ≠ '\r' ∧ isNbsp c = false ∧ c ≠ '\t') ∧
  List.Chain' sepRel l ∧
  (∀ c, l.head? = some c → jsWs c = false) ∧
  (∀ c, l.getLast? = some c → jsWs c = false)

theorem collapseAux_cons_not {x : Char} {xs : List Char} (b : Bool)
    (hx : isSpaceTab x = false) :
    collapseAux b (x :: xs) = x :: collapseAux false xs := by
  cases b <;> simp [collapseAux, hx]

theorem collapseAux_cons_run_true {x : Char} {xs : List Char}
    (hx : isSpaceTab x = true) :
    collapseAux true (x :: xs) = collapseAux true xs := by
  simp [collapseAux, hx]

theorem collapseAux_cons_run_false {x : Char} {xs : List Char}
    (hx : isSpaceTab x = true) :
    collapseAux false (x :: xs) = ' ' :: collapseAux true xs := by
  simp [collapseAux, hx]

theorem mem_collapseAux {c : Char} : ∀ {b : Bool} {l : List Char},
    c ∈ collapseAux b l → c = ' ' ∨ c ∈ l := by
  intro b l
  induction l generalizing b with
  | nil => intro h; simp [collapseAux] at h
  | cons a t ih =>
    intro h
    by_cases ha : isSpaceTab a
    · cases b with
      | true =>
        simp only [collapseAux, ha, if_pos, if_true] at h
        rcases ih h with h' | h'
        · exact Or.inl h'
        · exact Or.inr (List.mem_cons_of_mem _ h')
      | false =>
        simp only [collapseAux, ha, if_pos, if_true] at h
        rcases List.mem_cons.mp h with h' | h'
        · exact Or.inl h'
        · rcases ih h' with h'' | h''
          · exact Or.inl h''
          · exact Or.inr (List.mem_cons_of_mem _ h'')
    · simp only [collapseAux, ha, if_neg, if_false] at h
      rcases List.mem_cons.mp h with h' | h'
      · exact Or.inr (h' ▸ List.mem_cons_self _ _)
      · rcases ih h' with h'' | h''
        · exact Or.inl h''
        · exact Or.inr (List.mem_cons_of_mem _ h'')

theorem spaceTab_mem_collapseAux {c : Char} : ∀ {b : Bool} {l : List Char},
    c ∈ collapseAux b l → isSpaceTab c = true → c = ' ' := by
  intro b l
  induction l generalizing b with
  | nil => intro h; simp [collapseAux] at h
  | cons a t ih =>
    intro h hst
    by_cases ha : isSpaceTab a
    · cases b with
      | true =>
        simp only [collapseAux, ha, if_true] at h
        exact ih h hst
      | false =>
        simp only [collapseAux, ha, if_true] at h
        rcases List.mem_cons.mp h with h' | h'
        · exact h'
        · exact ih h' hst
    · rw [collapseAux, if_neg ha] at h
      rcases List.mem_cons.mp h with h' | h'
      · subst h'; exact absurd hst ha
      · exact ih h' hst

theorem head?_collapseAux_true {l : List Char} {c : Char}
    (h : (collapseAux true l).head? = some c) : isSpaceTab c = false := by
  induction l with
  | nil => simp [collapseAux] at h
  | cons a t ih =>
    by_cases ha : isSpaceTab a
    · simp only [collapseAux, ha, if_true] at h
      exact ih h
    · rw [collapseAux, if_neg ha, List.head?_cons, Option.some.injEq] at h
      subst h
      simpa using ha

theorem chain'_collapseAux : ∀ (l : List Char) (b : Bool),
    List.Chain' sepRel (collapseAux b l) := by
  intro l
  induction l with
  | nil => intro b; simp [collapseAux]
  | cons a t ih =>
    intro b
    by_cases ha : isSpaceTab a
    · cases b with
      | true => rw [collapseAux_cons_run_true ha]; exact ih true
      | false =>
        rw [collapseAux_cons_run_false ha, List.chain'_cons']
        refine ⟨fun y hy => Or.inr ?_, ih true⟩
        exact head?_collapseAux_true (by simpa using hy)
    · rw [collapseAux_cons_not b (by simpa using ha), List.chain'_cons']
      refine ⟨fun y _ => Or.inl (by simpa using ha), ih false⟩

theorem collapseAux_false_eq_self : ∀ (l : List Char),
    '\t' ∉ l → List.Chain' sepRel l → collapseAux false l = l := by
  intro l
  induction l with
  | nil => intro _ _; rfl
  | cons a t ih =>
    intro hnt hch
    by_cases ha : isSpaceTab a
    · have haSp : a = ' ' := by
        rcases Bool.or_eq_true_iff.mp ha with h | h
        · exact decide_eq_true_eq.mp h
        · exact absurd (decide_eq_true_eq.mp h ▸ List.mem_cons_self _ _) hnt
      rw [collapseAux_cons_run_false ha]
      cases t with
      | nil => simp [collapseAux, haSp]
      | cons d t' =>
        have hd : isSpaceTab d = false := by
          rcases (List.chain'_cons.mp hch).1 with h | h
          · rw [h] at ha; cases ha
          · exact h
        have htail : collapseAux false (d :: t') = d :: t' := by
          refine ih (fun hm => hnt (List.mem_cons_of_mem _ hm)) ?_
          exact (List.chain'_cons'.mp hch).2
        rw [collapseAux_cons_not false hd] at htail
        rw [collapseAux_cons_not true hd, htail, haSp]
    · rw [collapseAux_cons_not false (by simpa using ha)]
      have htail := ih (fun hm => hnt (List.mem_cons_of_mem _ hm))
        (List.Chain'.tail hch)
      rw [htail]

theorem head?_dropWhile_eq_some {p : α → Bool} : ∀ {l : List α} {c : α},
    (l.dropWhile p).head? = some c → p c = false := by
  intro l
  induction l with
  | nil => intro c h; simp [List.dropWhile] at h
  | cons a t ih =>
    intro c h
    by_cases ha : p a
    · rw [List.dropWhile_cons, if_pos ha] at h
      exact ih h
    · rw [List.dropWhile_cons, if_neg ha, List.head?_cons] at h
      rw [← Option.some.injEq _ _ |>.mp h]
      simpa using ha

theorem trimStart_suffix (l : List Char) : trimStart l <:+ l :=
  List.dropWhile_suffix jsWs

theorem trimEnd_front (l : List Char) : trimEnd l <+: l := by
  have h := List.reverse_prefix.mpr (List.dropWhile_suffix (l := l.reverse) jsWs)
  rw [List.reverse_reverse] at h
  exact h

theorem within_of_suffix {l₁ l₂ : List α} (h : l₁ <:+ l₂) : l₁ <:+: l₂ := by
  rcases h with ⟨u, hu⟩
  exact ⟨u, [], by rw [List.append_nil]; exact hu⟩

theorem jsTrim_within (l : List Char) : jsTrim l <:+: l := by
  rcases trimEnd_front (trimStart l) with ⟨u, hu⟩
  rcases trimStart_suffix l with ⟨v, hv⟩
  exact ⟨v, u, by rw [jsTrim, List.append_assoc, hu, hv]⟩

theorem mem_jsTrim {c : Char} {l : List Char} (h : c ∈ jsTrim l) : c ∈ l :=
  (jsTrim_within l).subset h

theorem head?_trimEnd {l : List Char} {c : Char}
    (h : (trimEnd l).head? = some c) : l.head? = some c := by
  rcases trimEnd_front l with ⟨u, hu⟩
  rw [← hu]
  cases he : trimEnd l with
  | nil => rw [he] at h; cases h
  | cons a t => rw [he] at h; simpa using h

theorem getLast?_trimEnd_ws {l : List Char} {c : Char}
    (h : (trimEnd l).getLast? = some c) : jsWs c = false := by
  rw [trimEnd, List.getLast?_reverse] at h
  exact head?_dropWhile_eq_some h

theorem head?_jsTrim_ws {l : List Char} {c : Char}
    (h : (jsTrim l).head? = some c) : jsWs c = false :=
  head?_dropWhile_eq_some (head?_trimEnd h)

theorem getLast?_jsTrim_ws {l : List Char} {c : Char}
    (h : (jsTrim l).getLast? = some c) : jsWs c = false :=
  getLast?_trimEnd_ws h

theorem trimStart_eq_self {l : List Char}
    (h : ∀ c, l.head? = some c → jsWs c = false) : trimStart l = l := by
  cases l with
  | nil => rfl
  | cons a t =>
    have := h a (by simp)
    simp [trimStart, List.dropWhile_cons, this]

theorem trimEnd_eq_self {l : List Char}
    (h : ∀ c, l.getLast? = some c → jsWs c = false) : trimEnd l = l := by
  have : l.reverse.dropWhile jsWs = l.reverse := by
    cases hr : l.reverse with
    | nil => rfl
    | cons a t =>
      have ha : jsWs a = false := by
        apply h
        rw [← List.head?_reverse, hr]
        simp
      simp [List.dropWhile_cons, ha]
  simp [trimEnd, this]

theorem jsTrim_eq_self {l : List Char}
    (h1 : ∀ c, l.head? = some c → jsWs c = false)
    (h2 : ∀ c, l.getLast? = some c → jsWs c = false) : jsTrim l = l := by
  rw [jsTrim, trimStart_eq_self h1, trimEnd_eq_self h2]

theorem map_eq_self_of {f : α → α} : ∀ {l : List α},
    (∀ c ∈ l, f c = c) → l.map f = l := by
  intro l
  induction l with
  | nil => intro _; rfl
  | cons a t ih =>
    intro h
    rw [List.map_cons, h a (List.mem_cons_self _ _),
      ih fun c hc => h c (List.mem_cons_of_mem _ hc)]

/-- Every output of `norm` satisfies the `normed` invariants. -/
theorem normed_norm (s : List Char) : normed (norm s) := by
  have hmem : ∀ c ∈ norm s,
      c ∈ collapseSpaces ((s.filter (fun c => c ≠ '\r')).map replChar) :=
    fun c hc => mem_jsTrim hc
  refine ⟨?_, ?_, ?_, ?_⟩
  · intro c hc
    rcases mem_collapseAux (hmem c hc) with hsp | hx
    · subst hsp
      refine ⟨by decide, by decide, by decide⟩
    · rcases List.mem_map.mp hx with ⟨z, hz, hzc⟩
      have hzr : z ≠ '\r' := by
        have := (List.mem_filter.mp hz).2
        exact of_decide_eq_true this
      refine ⟨?_, ?_, ?_⟩
      · by_cases hn : isNbsp z
        · rw [← hzc]; simp [replChar, hn]
        · rw [← hzc]; simpa [replChar, hn] using hzr
      · by_cases hn : isNbsp z
        · rw [← hzc]; simp [replChar, hn]; decide
        · rw [← hzc, replChar, if_neg hn]
          exact Bool.of_not_eq_true hn
      · intro hct
        subst hct
        have := spaceTab_mem_collapseAux (hmem _ hc) (by decide)
        cases this
  · exact List.Chain'.infix (chain'_collapseAux _ false) (jsTrim_within _)
  · exact fun c h => head?_jsTrim_ws h
  · exact fun c h => getLast?_jsTrim_ws h

/-- `norm` is the identity on strings satisfying the `normed` invariants. -/
theorem norm_eq_self_of_normed {l : List Char} (h : normed l) : norm l = l := by
  obtain ⟨hchars, hchain, hhd, hlast⟩ := h
  have hf : l.filter (fun c => c ≠ '\r') = l :=
    List.filter_eq_self.mpr fun a ha => decide_eq_true (hchars a ha).1
  have hm : l.map replChar = l :=
    map_eq_self_of fun c hc => by simp [replChar, (hchars c hc).2.1]
  have hcol : collapseSpaces l = l :=
    collapseAux_false_eq_self l (fun hmem => (hchars '\t' hmem).2.2 rfl) hchain
  rw [norm, hf, hm, collapseSpaces] at *
  rw [hcol, jsTrim_eq_self hhd hlast]

/-- C9: the Text Normalizer is idempotent — normalizing an
already-normalized string returns it unchanged: `norm (norm s) = norm s`
for every input string `s`. -/
theorem norm_idempotent (s : List Char) : norm (norm s) = norm s :=
  norm_eq_self_of_normed (normed_norm s)

/-! ### The two heading detectors agree on detection -/

/-- The head-anchored test of `headingTest` succeeds exactly when
`headingMatchAt` succeeds. -/
theorem headingMatchAt_isSome_iff (t : List Char) :
    (headingMatchAt t).isSome = true ↔
      (startsWithCI t litRoR &&
        (match t.drop litRoR.length with
         | d :: _ => isDigit d
         | [] => false)) = true := by
  rw [headingMatchAt]
  by_cases hs : startsWithCI t litRoR
  · rw [if_pos hs, hs, Bool.true_and]
    cases hdrop : t.drop litRoR.length with
    | nil => simp [hdrop, List.takeWhile]
    | cons d rest =>
      by_cases hd : isDigit d
      · simp [hdrop, List.takeWhile_cons, hd]
      · simp [hdrop, List.takeWhile_cons, hd]
  · rw [if_neg hs]
    simp [Bool.eq_false_iff.mpr hs]

theorem headingScanAux_ne_nil_of_test :
    ∀ (fuel : Nat) (t : List Char) (off : Nat), headingTest t = true →
      t.length < fuel → headingScanAux fuel t off ≠ [] := by
  intro fuel
  induction fuel with
  | zero => intro t off _ hlt; omega
  | succ n ih =>
    intro t off htest hlt
    cases t with
    | nil => cases htest
    | cons c rest =>
      rw [headingScanAux]
      cases hm : headingMatchAt (c :: rest) with
      | some p => simp
      | none =>
        have hanchor :
            (startsWithCI (c :: rest) litRoR &&
              (match (c :: rest).drop litRoR.length with
               | d :: _ => isDigit d
               | [] => false)) = false := by
          by_contra hne
          have := (headingMatchAt_isSome_iff (c :: rest)).mpr
            (Bool.of_not_eq_false hne)
          rw [hm] at this
          cases this
        have htest' : headingTest rest = true := by
          rw [headingTest, Bool.or_eq_true] at htest
          rcases htest with h | h
          · rw [h] at hanchor; cases hanchor
          · exact h
        simp only []
        exact ih rest (off + 1) htest' (by simpa using Nat.lt_of_succ_lt_succ hlt)

theorem headingTest_of_scanAux_ne_nil :
    ∀ (fuel : Nat) (t : List Char) (off : Nat),
      headingScanAux fuel t off ≠ [] → headingTest t = true := by
  intro fuel
  induction fuel with
  | zero => intro t off h; rw [headingScanAux] at h; exact absurd rfl h
  | succ n ih =>
    intro t off h
    cases t with
    | nil => rw [headingScanAux] at h; exact absurd rfl h
    | cons c rest =>
      rw [headingScanAux] at h
      cases hm : headingMatchAt (c :: rest) with
      | some p =>
        have : (headingMatchAt (c :: rest)).isSome = true := by rw [hm]; rfl
        have hanchor := (headingMatchAt_isSome_iff (c :: rest)).mp this
        rw [headingTest, Bool.or_eq_true]
        exact Or.inl hanchor
      | none =>
        rw [hm] at h
        rw [headingTest, Bool.or_eq_true]
        exact Or.inr (ih rest (off + 1) h)

theorem headingScan_ne_nil_iff (t : List Char) :
    headingScan t ≠ [] ↔ headingTest t = true := by
  constructor
  · exact headingTest_of_scanAux_ne_nil _ t 0
  · intro h
    exact headingScanAux_ne_nil_of_test _ t 0 h (Nat.lt_succ_self _)

/-! ### Error-handling claims -/

instance {ε α : Type} [DecidableEq ε] [DecidableEq α] : DecidableEq (Except ε α) :=
  fun a b =>
    match a, b with
    | .error e, .error f => decidable_of_iff (e = f) (by simp)
    | .ok x, .ok y => decidable_of_iff (x = y) (by simp)
    | .error _, .ok _ => isFalse (by intro h; cases h)
    | .ok _, .error _ => isFalse (by intro h; cases h)

/-- C6: when the round-heading pattern matches no markup element and does
not occur in the normalized full-document text either, `extractRounds`
fails with `NoRoundsFound`. -/
theorem extractRounds_noRoundsFound (d : Doc)
    (h1 : headingIdxs d = [])
    (h2 : headingTest (norm (bodyText d)) = false) :
    extractRounds d = .error .NoRoundsFound := by
  rw [extractRounds, parseRandomOrgVerify, if_pos h1]
  simp [h2]

/-- Witness for C6: a document whose single element mentions no round
heading fails with `NoRoundsFound`. -/
theorem extractRounds_noRoundsFound_witness :
    headingIdxs ⟨[⟨true, true, "hello world".data⟩]⟩ = [] ∧
    headingTest (norm (bodyText ⟨[⟨true, true, "hello world".data⟩]⟩)) = false ∧
    extractRounds ⟨[⟨true, true, "hello world".data⟩]⟩ = .error .NoRoundsFound :=
  ⟨by decide, by decide,
    extractRounds_noRoundsFound ⟨[⟨true, true, "hello world".data⟩]⟩
      (by decide) (by decide)⟩

/-- A rational is an integer at least one exactly when its canonical
denominator is one and its value is at least one. -/
theorem den_one_le_iff (bc : ℚ) :
    (bc.den = 1 ∧ 1 ≤ bc) ↔ ∃ n : ℤ, bc = (n : ℚ) ∧ 1 ≤ n := by
  constructor
  · rintro ⟨hden, hle⟩
    refine ⟨bc.num, ((Rat.den_eq_one_iff bc).mp hden).symm, ?_⟩
    rw [← (Rat.den_eq_one_iff bc).mp hden] at hle
    exact_mod_cast hle
  · rintro ⟨n, rfl, hn⟩
    exact ⟨Rat.den_intCast n, by exact_mod_cast hn⟩

/-- C7: `buildTwoLists` fails with `InvalidBottomCount` if and only if its
`bottomCount` argument is not an integer that is at least 1; in particular
`bottomCount = 0` fails, for every round collection. -/
theorem buildTwoLists_invalidBottomCount :
    (∀ (rounds : List Round) (bc : ℚ),
      buildTwoLists rounds bc = .error .InvalidBottomCount ↔
        ¬ ∃ n : ℤ, bc = (n : ℚ) ∧ 1 ≤ n) ∧
    (∀ rounds : List Round, buildTwoLists rounds 0 = .error .InvalidBottomCount) := by
  constructor
  · intro rounds bc
    by_cases h : bc.den = 1 ∧ 1 ≤ bc
    · rw [buildTwoLists, if_neg (not_not_intro h)]
      constructor
      · intro hc; cases hc
      · intro hc; exact absurd ((den_one_le_iff bc).mp h) hc
    · rw [buildTwoLists, if_pos h]
      constructor
      · intro _ hex; exact h ((den_one_le_iff bc).mpr hex)
      · intro _; rfl
  · intro rounds
    rw [buildTwoLists, if_pos (by norm_num)]

/-- C5 helper: a whole `filterMap` round construction is empty when every
chunk yields zero names. -/
theorem rawRoundsMarkup_eq_nil (d : Doc)
    (h : ∀ i ∈ headingIdxs d, extractNamesFromChunk (chunkAt d i) = []) :
    rawRoundsMarkup d = [] := by
  rw [rawRoundsMarkup, List.filterMap_eq_nil_iff]
  rintro ⟨k, i⟩ hmem
  have hi : i ∈ headingIdxs d := by
    have := List.mem_map_of_mem Prod.snd hmem
    rwa [List.enum_eq_enumFrom, List.enumFrom_map_snd] at this
  simp [markupRoundAt, h i hi]

theorem rawRoundsText_eq_nil (t : List Char)
    (h : ∀ k < (headingScan t).length,
      textNamesOfChunk (textChunkAt t (headingScan t) k) = []) :
    rawRoundsText t = [] := by
  rw [rawRoundsText, List.filterMap_eq_nil_iff]
  intro k hk
  have hklt := List.mem_range.mp hk
  simp [textRoundAt, h k hklt]

/-- C5: when round headings are detected (in markup or in text mode) but
every chunk yields zero names, `extractRounds` fails with `NoNamesParsed`
rather than returning an empty collection. -/
theorem extractRounds_noNamesParsed (d : Doc) :
    (headingIdxs d ≠ [] →
      (∀ i ∈ headingIdxs d, extractNamesFromChunk (chunkAt d i) = []) →
      extractRounds d = .error .NoNamesParsed) ∧
    (headingIdxs d = [] → headingTest (norm (bodyText d)) = true →
      (∀ k < (headingScan (norm (bodyText d))).length,
        textNamesOfChunk
          (textChunkAt (norm (bodyText d)) (headingScan (norm (bodyText d))) k) = []) →
      extractRounds d = .error .NoNamesParsed) := by
  constructor
  · intro h1 h2
    rw [extractRounds, parseRandomOrgVerify, if_neg h1]
    simp [rawRoundsMarkup_eq_nil d h2]
  · intro h1 h2 h3
    rw [extractRounds, parseRandomOrgVerify, if_pos h1]
    simp only [h2, Bool.true_eq_false, if_neg, if_false]
    rw [parseFromTextFallback,
      if_neg ((headingScan_ne_nil_iff (norm (bodyText d))).mpr h2)]
    simp [rawRoundsText_eq_nil (norm (bodyText d)) h3]

/-- Witness for C5: a document with a round heading followed by prose with
no numbered lines fails with `NoNamesParsed`. -/
theorem extractRounds_noNamesParsed_witness :
    headingIdxs ⟨[⟨true, true, "Result of Round #1".data⟩,
        ⟨true, true, "no entries here".data⟩]⟩ ≠ [] ∧
    extractRounds ⟨[⟨true, true, "Result of Round #1".data⟩,
        ⟨true, true, "no entries here".data⟩]⟩ = .error .NoNamesParsed :=
  ⟨by decide,
    (extractRounds_noNamesParsed ⟨[⟨true, true, "Result of Round #1".data⟩,
        ⟨true, true, "no entries here".data⟩]⟩).1 (by decide) (by decide)⟩

/-! ### Success-path invariants -/

instance : IsTotal Round (fun a b => a.round ≤ b.round) :=
  ⟨fun a b => Nat.le_total a.round b.round⟩

instance : IsTrans Round (fun a b => a.round ≤ b.round) :=
  ⟨fun _ _ _ => Nat.le_trans⟩

theorem sortRounds_sorted (rs : List Round) :
    List.Sorted (fun a b : Round => a.round ≤ b.round) (sortRounds rs) :=
  List.sorted_insertionSort _ rs

theorem sortRounds_perm (rs : List Round) : List.Perm (sortRounds rs) rs :=
  List.perm_insertionSort _ rs

theorem sortRounds_ne_nil {rs : List Round} (h : rs ≠ []) : sortRounds rs ≠ [] := by
  intro hnil
  have p := sortRounds_perm rs
  rw [hnil] at p
  exact h p.symm.eq_nil

theorem mem_sortRounds {r : Round} {rs : List Round} :
    r ∈ sortRounds rs ↔ r ∈ rs :=
  (sortRounds_perm rs).mem_iff

theorem names_ne_nil_of_mem_rawRoundsMarkup {d : Doc} {r : Round}
    (h : r ∈ rawRoundsMarkup d) : r.names ≠ [] := by
  rcases List.mem_filterMap.mp h with ⟨⟨k, i⟩, _, heq⟩
  simp only [markupRoundAt] at heq
  by_cases hn : extractNamesFromChunk (chunkAt d i) = []
  · rw [if_pos hn] at heq; cases heq
  · rw [if_neg hn] at heq
    have := Option.some.injEq _ _ |>.mp heq
    rw [← this]
    exact hn

theorem names_ne_nil_of_mem_rawRoundsText {t : List Char} {r : Round}
    (h : r ∈ rawRoundsText t) : r.names ≠ [] := by
  rcases List.mem_filterMap.mp h with ⟨k, _, heq⟩
  simp only [textRoundAt] at heq
  by_cases hn : textNamesOfChunk (textChunkAt t (headingScan t) k) = []
  · rw [if_pos hn] at heq; cases heq
  · rw [if_neg hn] at heq
    have := Option.some.injEq _ _ |>.mp heq
    rw [← this]
    exact hn

theorem headingIdxs_ne_nil_of_rawRoundsMarkup {d : Doc}
    (h : rawRoundsMarkup d ≠ []) : headingIdxs d ≠ [] := by
  intro hnil
  rw [rawRoundsMarkup, hnil] at h
  exact h rfl

theorem headingScan_ne_nil_of_rawRoundsText {t : List Char}
    (h : rawRoundsText t ≠ []) : headingScan t ≠ [] := by
  intro hnil
  rw [rawRoundsText] at h
  rw [hnil] at h
  exact h rfl

/-- C4: for every document in which some round heading's chunk yields at
least one name (in markup mode, or in text mode when no markup heading
exists), `extractRounds` succeeds with a non-empty collection sorted
ascending by round number in which every round has at least one name. -/
theorem extractRounds_success (d : Doc)
    (h : rawRoundsMarkup d ≠ [] ∨
      (headingIdxs d = [] ∧ rawRoundsText (norm (bodyText d)) ≠ [])) :
    ∃ rs, extractRounds d = .ok rs ∧ rs ≠ [] ∧
      List.Sorted (fun a b : Round => a.round ≤ b.round) rs ∧
      ∀ r ∈ rs, r.names ≠ [] := by
  rcases h with hmk | ⟨hidx, htx⟩
  · refine ⟨sortRounds (rawRoundsMarkup d), ?_, sortRounds_ne_nil hmk,
      sortRounds_sorted _, ?_⟩
    · rw [extractRounds, parseRandomOrgVerify,
        if_neg (headingIdxs_ne_nil_of_rawRoundsMarkup hmk)]
      simp [hmk]
    · intro r hr
      exact names_ne_nil_of_mem_rawRoundsMarkup (mem_sortRounds.mp hr)
  · have hscan := headingScan_ne_nil_of_rawRoundsText htx
    have htest := (headingScan_ne_nil_iff _).mp hscan
    refine ⟨sortRounds (rawRoundsText (norm (bodyText d))), ?_,
      sortRounds_ne_nil htx, sortRounds_sorted _, ?_⟩
    · rw [extractRounds, parseRandomOrgVerify, if_pos hidx]
      simp only [htest, Bool.true_eq_false, if_false]
      rw [parseFromTextFallback, if_neg hscan]
      simp [htx]
    · intro r hr
      exact names_ne_nil_of_mem_rawRoundsText (mem_sortRounds.mp hr)

/-- On success, `extractRounds` returns a non-empty list sorted ascending
by round number (shared shape lemma for the success branches). -/
theorem extractRounds_ok_sorted {d : Doc} {rs : List Round}
    (h : extractRounds d = .ok rs) :
    rs ≠ [] ∧ List.Sorted (fun a b : Round => a.round ≤ b.round) rs := by
  rw [extractRounds, parseRandomOrgVerify] at h
  by_cases h1 : headingIdxs d = []
  · rw [if_pos h1] at h
    by_cases h2 : headingTest (norm (bodyText d)) = false
    · rw [if_pos h2] at h; cases h
    · rw [if_neg h2, parseFromTextFallback] at h
      by_cases h3 : headingScan (norm (bodyText d)) = []
      · rw [if_pos h3] at h; cases h
      · rw [if_neg h3] at h
        by_cases h4 : rawRoundsText (norm (bodyText d)) = []
        · rw [if_pos h4] at h; cases h
        · rw [if_neg h4] at h
          have heq : sortRounds (rawRoundsText (norm (bodyText d))) = rs := by
            injection h
          rw [← heq]
          exact ⟨sortRounds_ne_nil h4, sortRounds_sorted _⟩
  · rw [if_neg h1] at h
    by_cases h4 : rawRoundsMarkup d = []
    · rw [if_pos h4] at h; cases h
    · rw [if_neg h4] at h
      have heq : sortRounds (rawRoundsMarkup d) = rs := by
        injection h
      rw [← heq]
      exact ⟨sortRounds_ne_nil h4, sortRounds_sorted _⟩

/-! ### Fixed-point and non-emptiness facts about extracted names -/

/-- `stripLeadIndex` returns a suffix of its argument. -/
theorem stripLeadIndex_suffix (v : List Char) : stripLeadIndex v <:+ v := by
  rw [stripLeadIndex]
  by_cases h : v.takeWhile isDigit ≠ [] ∧
      (v.dropWhile isDigit).takeWhile jsWs ≠ [] ∧
      (v.dropWhile isDigit).dropWhile jsWs ≠ []
  · rw [if_pos h]
    exact (List.dropWhile_suffix jsWs).trans (List.dropWhile_suffix isDigit)
  · rw [if_neg h]

/-- Every `cleanName` output is a fixed point of `norm`. -/
theorem norm_cleanName (s : List Char) : norm (cleanName s) = cleanName s := by
  rw [cleanName]
  by_cases h : norm s ≠ [] ∧ (norm s).all isDigit
  · rw [if_pos h]
    exact norm_idempotent s
  · rw [if_neg h]
    have hinf : jsTrim (stripLeadIndex (norm s)) <:+: norm s :=
      (jsTrim_within _).trans (within_of_suffix (stripLeadIndex_suffix (norm s)))
    refine norm_eq_self_of_normed
      ⟨fun c hc => (normed_norm s).1 c (hinf.subset hc),
        List.Chain'.infix (normed_norm s).2.1 hinf,
        fun c hc => head?_jsTrim_ws hc,
        fun c hc => getLast?_jsTrim_ws hc⟩

/-- A member that fails the predicate survives `dropWhile`. -/
theorem mem_dropWhile_of_neg {p : α → Bool} : ∀ {l : List α} {c : α},
    c ∈ l → p c = false → c ∈ l.dropWhile p := by
  intro l
  induction l with
  | nil => intro c h _; cases h
  | cons a t ih =>
    intro c h hc
    rw [List.dropWhile_cons]
    by_cases hpa : p a
    · rw [if_pos hpa]
      rcases List.mem_cons.mp h with rfl | h'
      · rw [hpa] at hc; cases hc
      · exact ih h' hc
    · rw [if_neg hpa]
      exact h

/-- A non-run character survives the space collapse. -/
theorem mem_collapseAux_of_mem : ∀ {b : Bool} {l : List Char} {c : Char},
    c ∈ l → isSpaceTab c = false → c ∈ collapseAux b l := by
  intro b l
  induction l generalizing b with
  | nil => intro c h _; cases h
  | cons a t ih =>
    intro c h hc
    by_cases ha : isSpaceTab a
    · have h' : c ∈ t := by
        rcases List.mem_cons.mp h with rfl | h'
        · rw [ha] at hc; cases hc
        · exact h'
      cases b with
      | true => rw [collapseAux_cons_run_true ha]; exact ih h' hc
      | false =>
        rw [collapseAux_cons_run_false ha]
        exact List.mem_cons_of_mem _ (ih h' hc)
    · rw [collapseAux_cons_not b (by simpa using ha)]
      rcases List.mem_cons.mp h with rfl | h'
      · exact List.mem_cons_self _ _
      · exact List.mem_cons_of_mem _ (ih h' hc)

/-- A non-whitespace character of `l` survives normalization, so `norm l`
is non-empty whenever `l` has a non-whitespace character. -/
theorem mem_norm_of_not_ws {l : List Char} {c : Char}
    (h : c ∈ l) (hc : jsWs c = false) : c ∈ norm l := by
  have hni : c ≠ '\r' := by rintro rfl; cases hc
  have hnb : isNbsp c = false := by
    cases hb : isNbsp c
    · rfl
    · exfalso
      rcases Bool.or_eq_true_iff.mp hb with h' | h'
      · rcases Bool.or_eq_true_iff.mp h' with h'' | h'' <;>
          (rw [decide_eq_true_eq.mp h''] at hc; cases hc)
      · rw [decide_eq_true_eq.mp h'] at hc; cases hc
  have hst : isSpaceTab c = false := by
    cases hb : isSpaceTab c
    · rfl
    · exfalso
      rcases Bool.or_eq_true_iff.mp hb with h' | h' <;>
        (rw [decide_eq_true_eq.mp h'] at hc; cases hc)
  have h1 : c ∈ l.filter (fun c => c ≠ '\r') :=
    List.mem_filter.mpr ⟨h, decide_eq_true hni⟩
  have h2 : c ∈ (l.filter (fun c => c ≠ '\r')).map replChar := by
    have : replChar c = c := by rw [replChar, if_neg (by rw [hnb]; exact Bool.false_ne_true)]
    rw [← this]
    exact List.mem_map_of_mem replChar h1
  have h3 : c ∈ collapseSpaces ((l.filter (fun c => c ≠ '\r')).map replChar) :=
    mem_collapseAux_of_mem h2 hst
  rw [norm, jsTrim, trimEnd]
  rw [List.mem_reverse]
  refine mem_dropWhile_of_neg (List.mem_reverse.mpr ?_) hc
  exact mem_dropWhile_of_neg h3 hc

theorem norm_ne_nil_of_not_ws {l : List Char} {c : Char}
    (h : c ∈ l) (hc : jsWs c = false) : norm l ≠ [] :=
  List.ne_nil_of_mem (mem_norm_of_not_ws h hc)

/-- The ends-in-non-whitespace property, inherited by suffixes. -/
def lastNonWs (l : List Char) : Prop :=
  ∀ x, l.getLast? = some x → jsWs x = false

theorem lastNonWs_of_suffix {l l' : List Char} (hs : l' <:+ l)
    (h : lastNonWs l) : lastNonWs l' := by
  intro x hx
  rcases hs with ⟨u, hu⟩
  refine h x ?_
  rw [← hu, List.getLast?_append, hx]
  rfl

theorem lastNonWs_norm (s : List Char) : lastNonWs (norm s) :=
  (normed_norm s).2.2.2

theorem eatNumDot_suffix {l r : List Char} (h : eatNumDot l = some r) :
    r <:+ l := by
  rw [eatNumDot] at h
  by_cases hds : ((l.dropWhile jsWs).takeWhile isDigit) = []
  · rw [if_pos hds] at h; cases h
  · rw [if_neg hds] at h
    cases hl2 : (l.dropWhile jsWs).dropWhile isDigit with
    | nil => rw [hl2] at h; cases h
    | cons a rest =>
      rw [hl2] at h
      have h' : (if a = '.' then some rest else none) = some r := h
      by_cases ha : a = '.'
      · rw [if_pos ha] at h'
        have hr : rest = r := Option.some.inj h'
        subst hr
        refine List.IsSuffix.trans ⟨[a], rfl⟩ ?_
        rw [List.singleton_append, ← hl2]
        exact (List.dropWhile_suffix isDigit).trans (List.dropWhile_suffix jsWs)
      · rw [if_neg ha] at h'; cases h'

theorem afterNextNl_suffix {s s' : List Char} (h : afterNextNl s = some s') :
    s' <:+ s := by
  rw [afterNextNl] at h
  cases hd : s.dropWhile (fun c => c ≠ '\n') with
  | nil => rw [hd] at h; cases h
  | cons a rest =>
    rw [hd] at h
    have : rest = s' := Option.some.inj h
    subst this
    refine List.IsSuffix.trans ⟨[a], rfl⟩ ?_
    rw [List.singleton_append, ← hd]
    exact List.dropWhile_suffix _

/-- `trimEnd` keeps a non-whitespace head. -/
theorem trimEnd_cons_head {c : Char} {l : List Char} (hc : jsWs c = false) :
    ∃ cs, trimEnd (c :: l) = c :: cs := by
  have hne : trimEnd (c :: l) ≠ [] := by
    intro hnil
    have hall : ∀ x ∈ (c :: l).reverse, jsWs x = true := by
      refine List.dropWhile_eq_nil_iff.mp ?_
      have : ((c :: l).reverse.dropWhile jsWs).reverse = [] := hnil
      simpa using this
    have := hall c (List.mem_reverse.mpr (List.mem_cons_self _ _))
    rw [hc] at this; cases this
  rcases trimEnd_front (c :: l) with ⟨u, hu⟩
  cases he : trimEnd (c :: l) with
  | nil => exact absurd he hne
  | cons a cs =>
    rw [he] at hu
    refine ⟨cs, ?_⟩
    have hac : a = c := by
      have := congrArg List.head? hu
      simpa using this
    rw [hac]

/-- `restAfter` preserves the ends-in-non-whitespace property. -/
theorem restAfter_lastNonWs {S : List Char} (h : lastNonWs S) :
    lastNonWs (restAfter S) := by
  rw [restAfter]
  by_cases hnl : (S.takeWhile jsWs).reverse.dropWhile (fun c => c ≠ '\n') = []
  · rw [if_pos hnl]
    exact lastNonWs_of_suffix (List.drop_suffix _ _) h
  · rw [if_neg hnl]
    cases hS' : S.drop (S.takeWhile jsWs).length with
    | nil =>
      exfalso
      have hrun_ne : S.takeWhile jsWs ≠ [] := by
        intro hr
        rw [hr] at hnl
        exact hnl rfl
      have hlen : S.length ≤ (S.takeWhile jsWs).length :=
        List.drop_eq_nil_iff.mp hS'
      have hrun_eq : S.takeWhile jsWs = S :=
        (List.takeWhile_prefix jsWs).eq_of_length_le hlen
      have hSne : S ≠ [] := by
        intro hS
        rw [hS] at hrun_ne
        exact hrun_ne (by simp)
      cases hlast : S.getLast? with
      | none => exact hSne (List.getLast?_eq_none_iff.mp hlast)
      | some x =>
        have hx1 := h x hlast
        have hx2 : x ∈ S.takeWhile jsWs := by
          rw [hrun_eq]
          exact List.mem_of_getLast?_eq_some hlast
        have := List.mem_takeWhile_imp hx2
        rw [hx1] at this; cases this
    | cons a S'' =>
      intro x hx
      rw [List.getLast?_append] at hx
      cases hgl : (a :: S'').getLast? with
      | none => exact absurd (List.getLast?_eq_none_iff.mp hgl) (by simp)
      | some w =>
        rw [hgl] at hx
        have hxw : w = x := by simpa using hx
        subst hxw
        have hsuf : (a :: S'') <:+ S := by
          rw [← hS']
          exact List.drop_suffix _ _
        exact lastNonWs_of_suffix hsuf h w hgl

/-- `dropTrailingWs` and `trimEnd` are one and the same operation. -/
theorem dropTrailingWs_eq_trimEnd (l : List Char) :
    dropTrailingWs l = trimEnd l := rfl

/-- The head-character specification of a successful `tailMatch` under the
ends-in-non-whitespace invariant: the capture starts with a non-whitespace
character and the remainder keeps the invariant. -/
theorem tailMatch_spec {t cap rest : List Char} (hlast : lastNonWs t)
    (h : tailMatch t = some (cap, rest)) :
    (∃ c cs, cap = c :: cs ∧ jsWs c = false) ∧ lastNonWs rest := by
  rw [tailMatch] at h
  by_cases hR : t.dropWhile jsWs = []
  · rw [if_pos hR] at h
    cases hln : lastNonNl t with
    | none => rw [hln] at h; cases h
    | some c =>
      exfalso
      have htne : t ≠ [] := by
        intro ht
        rw [ht] at hln
        cases hln
      have hall : ∀ x ∈ t, jsWs x = true := List.dropWhile_eq_nil_iff.mp hR
      cases hlt : t.getLast? with
      | none => exact htne (List.getLast?_eq_none_iff.mp hlt)
      | some x =>
        have h1 := hlast x hlt
        have h2 := hall x (List.mem_of_getLast?_eq_some hlt)
        rw [h1] at h2; cases h2
  · rw [if_neg hR] at h
    have hpair := Option.some.inj h
    obtain ⟨hcap, hrest⟩ := Prod.mk.injEq .. |>.mp hpair
    cases hRc : t.dropWhile jsWs with
    | nil => exact absurd hRc hR
    | cons c R' =>
      have hcws : jsWs c = false := by
        refine head?_dropWhile_eq_some (l := t) (p := jsWs) ?_
        rw [hRc, List.head?_cons]
      have hcnl : decide (c ≠ '\n') = true := by
        simp only [decide_eq_true_eq]
        intro hc
        rw [hc] at hcws
        cases hcws
      have hline : (t.dropWhile jsWs).takeWhile (fun x => x ≠ '\n') =
          c :: (R'.takeWhile (fun x => x ≠ '\n')) := by
        rw [hRc, List.takeWhile_cons, if_pos (by simpa using hcnl)]
      constructor
    
    
      · obtain ⟨cs, hcs⟩ :=
          trimEnd_cons_head (l := R'.takeWhile (fun x => x ≠ '\n')) hcws
        refine ⟨c, cs, ?_, hcws⟩
        rw [← hcap, dropTrailingWs_eq_trimEnd, hline, hcs]
      · rw [← hrest]
        refine restAfter_lastNonWs ?_
        refine lastNonWs_of_suffix ?_ hlast
        refine (List.drop_suffix _ _).trans ?_
        exact List.dropWhile_suffix jsWs

/-- Every capture of the global multiline scan, run on a text that does not
end in whitespace, starts with a non-whitespace character. -/
theorem scanCaptures_head_spec : ∀ (fuel : Nat) (s : List Char), lastNonWs s →
    ∀ cap ∈ scanCaptures fuel s, ∃ c cs, cap = c :: cs ∧ jsWs c = false := by
  intro fuel
  induction fuel with
  | zero =>
    intro s _ cap hmem
    rw [scanCaptures] at hmem
    cases hmem
  | succ n ih =>
    intro s hs cap hmem
    rw [scanCaptures] at hmem
    cases hm : tryLineMatch s with
    | some pr =>
      obtain ⟨cp, rest⟩ := pr
      simp only [hm] at hmem
      have hml := hm
      rw [tryLineMatch] at hml
      cases he1 : eatNumDot s with
      | none => simp only [he1] at hml; cases hml
      | some l1 =>
        simp only [he1] at hml
        cases he2 : eatNumDot l1 with
        | none => simp only [he2] at hml; cases hml
        | some l2 =>
          simp only [he2] at hml
          have hl2s : l2 <:+ s :=
            (eatNumDot_suffix he2).trans (eatNumDot_suffix he1)
          obtain ⟨hcapspec, hrestlast⟩ :=
            tailMatch_spec (lastNonWs_of_suffix hl2s hs) hml
          rcases List.mem_cons.mp hmem with rfl | hmem'
          · exact hcapspec
          · refine ih (rest.drop 1)
              (lastNonWs_of_suffix (List.drop_suffix _ _) hrestlast) cap hmem'
    | none =>
      simp only [hm] at hmem
      cases han : afterNextNl s with
      | none => simp only [han] at hmem; cases hmem
      | some s' =>
        simp only [han] at hmem
        exact ih s' (lastNonWs_of_suffix (afterNextNl_suffix han) hs) cap hmem

/-- Every name produced by the text-mode extractor applied to a normalized
chunk is non-empty and a fixed point of `norm`. -/
theorem textNames_names (X : List Char) :
    ∀ nm ∈ textNamesOfChunk (norm X), nm ≠ [] ∧ norm nm = nm := by
  intro nm hnm
  rw [textNamesOfChunk] at hnm
  rcases List.mem_filterMap.mp hnm with ⟨cap, hcapmem, heq⟩
  by_cases hc : cap = []
  · rw [if_pos hc] at heq; cases heq
  · rw [if_neg hc] at heq
    have heq' : norm cap = nm := Option.some.inj heq
    obtain ⟨c, cs, hcap, hcws⟩ :=
      scanCaptures_head_spec _ _ (lastNonWs_norm X) cap hcapmem
    constructor
    · rw [← heq']
      exact norm_ne_nil_of_not_ws (hcap ▸ List.mem_cons_self c cs) hcws
    · rw [← heq']
      exact norm_idempotent cap

/-- Every name produced by `namesOfLine` is non-empty and a fixed point of
`norm` (the push guards reject empty cleaned names; cleaned names are
normalized by construction). -/
theorem namesOfLine_names {line : List Char} :
    ∀ nm ∈ namesOfLine line, nm ≠ [] ∧ norm nm = nm := by
  intro nm h
  rw [namesOfLine] at h
  cases hm2 : matchTwoNums line with
  | some cap =>
    simp only [hm2] at h
    by_cases hg : cleanName cap ≠ []
    · rw [if_pos hg] at h
      rcases List.mem_cons.mp h with rfl | h'
      · exact ⟨hg, norm_cleanName cap⟩
      · cases h'
    · rw [if_neg hg] at h; cases h
  | none =>
    simp only [hm2] at h
    cases hm1 : matchOneNum line with
    | some cap =>
      simp only [hm1] at h
      by_cases hg : cleanName cap ≠ [] ∧
          containsCI (cleanName cap) "Result of Round".data = false ∧
          containsCI (cleanName cap) "Round #".data = false ∧
          containsCI (cleanName cap) "Verification".data = false
      · rw [if_pos hg] at h
        rcases List.mem_cons.mp h with rfl | h'
        · exact ⟨hg.1, norm_cleanName cap⟩
        · cases h'
      · rw [if_neg hg] at h; cases h
    | none => simp only [hm1] at h; cases h

theorem namesOfLines_names : ∀ (lines : List (List Char)),
    ∀ nm ∈ namesOfLines lines, nm ≠ [] ∧ norm nm = nm := by
  intro lines
  induction lines with
  | nil => intro nm h; cases h
  | cons line rest ih =>
    intro nm h
    rw [namesOfLines] at h
    rcases List.mem_append.mp h with h' | h'
    · exact namesOfLine_names nm h'
    · exact ih nm h'

theorem extractNames_names (chunk : List Char) :
    ∀ nm ∈ extractNamesFromChunk chunk, nm ≠ [] ∧ norm nm = nm := by
  intro nm h
  rw [extractNamesFromChunk] at h
  by_cases hc : chunk = []
  · rw [if_pos hc] at h; cases h
  · rw [if_neg hc] at h
    exact namesOfLines_names _ nm h

/-- On success, the returned collection is the sorted markup-mode rounds or
the sorted text-mode rounds. -/
theorem extractRounds_ok_cases {d : Doc} {rs : List Round}
    (h : extractRounds d = .ok rs) :
    rs = sortRounds (rawRoundsMarkup d) ∨
    rs = sortRounds (rawRoundsText (norm (bodyText d))) := by
  rw [extractRounds, parseRandomOrgVerify] at h
  by_cases h1 : headingIdxs d = []
  · rw [if_pos h1] at h
    by_cases h2 : headingTest (norm (bodyText d)) = false
    · rw [if_pos h2] at h; cases h
    · rw [if_neg h2, parseFromTextFallback] at h
      by_cases h3 : headingScan (norm (bodyText d)) = []
      · rw [if_pos h3] at h; cases h
      · rw [if_neg h3] at h
        by_cases h4 : rawRoundsText (norm (bodyText d)) = []
        · rw [if_pos h4] at h; cases h
        · rw [if_neg h4] at h
          right
          injection h with h'
          exact h'.symm
  · rw [if_neg h1] at h
    by_cases h4 : rawRoundsMarkup d = []
    · rw [if_pos h4] at h; cases h
    · rw [if_neg h4] at h
      left
      injection h with h'
      exact h'.symm

theorem names_eq_of_mem_rawRoundsMarkup {d : Doc} {r : Round}
    (h : r ∈ rawRoundsMarkup d) :
    ∃ i, r.names = extractNamesFromChunk (chunkAt d i) := by
  rcases List.mem_filterMap.mp h with ⟨⟨k, i⟩, _, heq⟩
  simp only [markupRoundAt] at heq
  by_cases hn : extractNamesFromChunk (chunkAt d i) = []
  · rw [if_pos hn] at heq; cases heq
  · rw [if_neg hn] at heq
    refine ⟨i, ?_⟩
    rw [← Option.some.inj heq]

theorem names_eq_of_mem_rawRoundsText {t : List Char} {r : Round}
    (h : r ∈ rawRoundsText t) :
    ∃ k, r.names = textNamesOfChunk (textChunkAt t (headingScan t) k) := by
  rcases List.mem_filterMap.mp h with ⟨k, _, heq⟩
  simp only [textRoundAt] at heq
  by_cases hn : textNamesOfChunk (textChunkAt t (headingScan t) k) = []
  · rw [if_pos hn] at heq; cases heq
  · rw [if_neg hn] at heq
    refine ⟨k, ?_⟩
    rw [← Option.some.inj heq]

/-- C10: every name in every round returned by a successful `extractRounds`
(markup or text mode) is a non-empty string that is a fixed point of the
Text Normalizer. -/
theorem extractRounds_names_normed (d : Doc) (rs : List Round)
    (h : extractRounds d = .ok rs) :
    ∀ r ∈ rs, ∀ nm ∈ r.names, nm ≠ [] ∧ norm nm = nm := by
  intro r hr nm hnm
  rcases extractRounds_ok_cases h with hcase | hcase
  · have hraw : r ∈ rawRoundsMarkup d := mem_sortRounds.mp (hcase ▸ hr)
    obtain ⟨i, hni⟩ := names_eq_of_mem_rawRoundsMarkup hraw
    exact extractNames_names _ nm (hni ▸ hnm)
  · have hraw : r ∈ rawRoundsText (norm (bodyText d)) :=
      mem_sortRounds.mp (hcase ▸ hr)
    obtain ⟨k, hnk⟩ := names_eq_of_mem_rawRoundsText hraw
    rw [hnk] at hnm
    revert hnm
    simp only [textChunkAt]
    intro hnm
    exact textNames_names _ nm hnm

/-- Witness for C10 on the spec's scenario document: the extracted name
`"Alice"` is non-empty and normalization-fixed. -/
theorem extractRounds_names_normed_witness :
    "Alice".data ≠ [] ∧ norm "Alice".data = "Alice".data :=
  extractRounds_names_normed ⟨[⟨true, true, "Result of Round #1".data⟩,
      ⟨true, true, "1. 1. Alice".data⟩, ⟨true, true, "1. 2. Bob".data⟩,
      ⟨true, true, "Result of Round #2".data⟩,
      ⟨true, true, "1. 1. Carol".data⟩]⟩
    [Round.mk 1 ["Alice".data, "Bob".data], Round.mk 2 ["Carol".data]]
    (by decide) (Round.mk 1 ["Alice".data, "Bob".data]) (by decide)
    "Alice".data (by decide)

/-! ### Character-class facts -/

theorem not_ws_of_digit {c : Char} (h : isDigit c = true) : jsWs c = false := by
  rw [isDigit] at h
  obtain ⟨h1, h2⟩ := Bool.and_eq_true_iff.mp h
  have hlo := of_decide_eq_true h1
  have hhi := of_decide_eq_true h2
  cases hjs : jsWs c with
  | false => rfl
  | true =>
    exfalso
    rw [jsWs] at hjs
    simp only [Bool.or_eq_true, Bool.and_eq_true, decide_eq_true_eq] at hjs
    rcases hjs with
      ((((((((((((((h'|h')|h')|h')|h')|h')|h')|h')|⟨hr1, hr2⟩)|h')|h')|h')|h')|h')|h') <;>
      first
      | (subst h'; exact absurd hlo (by decide))
      | (subst h'; exact absurd hhi (by decide))
      | omega

theorem not_spaceTab_of_not_ws {c : Char} (h : jsWs c = false) :
    isSpaceTab c = false := by
  cases hst : isSpaceTab c with
  | false => rfl
  | true =>
    exfalso
    rw [isSpaceTab] at hst
    rcases Bool.or_eq_true_iff.mp hst with h' | h' <;>
      (rw [decide_eq_true_eq.mp h'] at h; cases h)

theorem char_clean_of_not_ws {c : Char} (h : jsWs c = false) :
    c ≠ '\r' ∧ isNbsp c = false ∧ c ≠ '\t' := by
  refine ⟨?_, ?_, ?_⟩
  · rintro rfl; cases h
  · cases hb : isNbsp c with
    | false => rfl
    | true =>
      exfalso
      rw [isNbsp] at hb
      simp only [Bool.or_eq_true, decide_eq_true_eq] at hb
      rcases hb with (h' | h') | h' <;> (subst h'; cases h)
  · rintro rfl; cases h

/-- A list with no space/tab characters is trivially `sepRel`-chained. -/
theorem chain'_of_no_spaceTab : ∀ {l : List Char},
    (∀ x ∈ l, isSpaceTab x = false) → List.Chain' sepRel l := by
  intro l
  induction l with
  | nil => intro _; simp
  | cons a t ih =>
    intro h
    rw [List.chain'_cons']
    exact ⟨fun y _ => Or.inl (h a (List.mem_cons_self _ _)),
      ih fun x hx => h x (List.mem_cons_of_mem _ hx)⟩

/-- A non-empty list of non-whitespace characters satisfies the full
`normed` invariant bundle. -/
theorem normed_of_no_ws {l : List Char} (h : ∀ x ∈ l, jsWs x = false) :
    normed l := by
  refine ⟨fun c hc => char_clean_of_not_ws (h c hc), ?_, ?_, ?_⟩
  · exact chain'_of_no_spaceTab fun x hx => not_spaceTab_of_not_ws (h x hx)
  · intro c hc
    exact h c (by cases l with
      | nil => cases hc
      | cons a t =>
        rw [List.head?_cons, Option.some.injEq] at hc
        rw [← hc]; exact List.mem_cons_self _ _)
  · intro c hc
    exact h c (List.mem_of_getLast?_eq_some hc)

theorem norm_of_no_ws {l : List Char} (h : ∀ x ∈ l, jsWs x = false) :
    norm l = l :=
  norm_eq_self_of_normed (normed_of_no_ws h)

/-- `cleanName` is the identity on a whitespace-free string. -/
theorem cleanName_of_no_ws {nm : List Char}
    (h : ∀ x ∈ nm, jsWs x = false) : cleanName nm = nm := by
  rw [cleanName, norm_of_no_ws h]
  by_cases hdig : nm ≠ [] ∧ nm.all isDigit
  · rw [if_pos hdig]
  · rw [if_neg hdig]
    have hstrip : stripLeadIndex nm = nm := by
      simp only [stripLeadIndex]
      cases hw : (nm.dropWhile isDigit).takeWhile jsWs with
      | nil => rw [if_neg (by rintro ⟨_, hwne, _⟩; exact hwne rfl)]
      | cons x xs =>
        exfalso
        have hx1 : jsWs x = true :=
          List.mem_takeWhile_imp (hw ▸ List.mem_cons_self x xs)
        have hx2 : x ∈ nm :=
          (List.dropWhile_suffix isDigit).subset
            ((List.takeWhile_prefix jsWs).subset (hw ▸ List.mem_cons_self x xs))
        rw [h x hx2] at hx1
        cases hx1
    rw [hstrip]
    exact jsTrim_eq_self (normed_of_no_ws h).2.2.1 (normed_of_no_ws h).2.2.2

theorem takeWhile_append_of {p : α → Bool} : ∀ (d : List α) {e : α} {r : List α},
    (∀ x ∈ d, p x = true) → p e = false →
    (d ++ e :: r).takeWhile p = d ∧ (d ++ e :: r).dropWhile p = e :: r := by
  intro d
  induction d with
  | nil =>
    intro e r _ he
    constructor <;> simp [List.takeWhile_cons, List.dropWhile_cons, he]
  | cons a t ih =>
    intro e r hall he
    have ha := hall a (List.mem_cons_self _ _)
    obtain ⟨h1, h2⟩ := ih (fun x hx => hall x (List.mem_cons_of_mem _ hx)) he
    constructor
    · rw [List.cons_append, List.takeWhile_cons, if_pos ha, h1]
    · rw [List.cons_append, List.dropWhile_cons, if_pos ha, h2]

/-- C3: behaviour of the name-cleaning function on a matched capture `s`
with `v = norm s`: a pure digit string is returned unchanged; a leading
digit run followed by a space and a non-space character is stripped
(exactly once); otherwise — no digit prefix, or digits not followed by
whitespace-then-text — the normalized capture is returned unchanged. -/
theorem cleanName_spec (s : List Char) :
    ((norm s).all isDigit = true → cleanName s = norm s) ∧
    (∀ (d : List Char) (c : Char) (rest : List Char),
      norm s = d ++ ' ' :: c :: rest → d ≠ [] → (∀ x ∈ d, isDigit x = true) →
      jsWs c = false → cleanName s = c :: rest) ∧
    ((norm s).all isDigit = false →
      (¬ ∃ (d w : List Char) (c : Char) (rest : List Char),
        norm s = d ++ w ++ c :: rest ∧ d ≠ [] ∧ (∀ x ∈ d, isDigit x = true) ∧
        w ≠ [] ∧ (∀ x ∈ w, jsWs x = true) ∧ jsWs c = false) →
      cleanName s = norm s) := by
  refine ⟨?_, ?_, ?_⟩
  · intro ha
    by_cases hv : norm s = []
    · simp only [cleanName]
      rw [if_neg (by simp [hv]), hv]
      rfl
    · simp only [cleanName]
      rw [if_pos ⟨hv, ha⟩]
  · intro d c rest hveq hd hall hc
    have hnotall : (norm s).all isDigit = false := by
      rw [hveq]
      have hsp : isDigit ' ' = false := by decide
      simp [List.all_append, List.all_cons, hsp]
    simp only [cleanName]
    rw [if_neg (by intro hcon; rw [hnotall] at hcon; cases hcon.2)]
    obtain ⟨ht, hdp⟩ := takeWhile_append_of d (r := c :: rest) hall
      (by decide : isDigit ' ' = false)
    have hwcons : List.takeWhile jsWs (' ' :: c :: rest) = [' '] := by
      rw [List.takeWhile_cons, if_pos (by decide : jsWs ' ' = true),
        List.takeWhile_cons, if_neg (by rw [hc]; exact Bool.false_ne_true)]
    have hrcons : List.dropWhile jsWs (' ' :: c :: rest) = c :: rest := by
      rw [List.dropWhile_cons, if_pos (by decide : jsWs ' ' = true),
        List.dropWhile_cons, if_neg (by rw [hc]; exact Bool.false_ne_true)]
    have hstrip : stripLeadIndex (norm s) = c :: rest := by
      simp only [stripLeadIndex]
      rw [hveq, ht, hdp, hwcons, hrcons]
      rw [if_pos ⟨hd, by simp, by simp⟩]
    rw [hstrip]
    refine jsTrim_eq_self ?_ ?_
    · intro x hx
      rw [List.head?_cons, Option.some.injEq] at hx
      rw [← hx]
      exact hc
    · intro x hx
      refine (normed_norm s).2.2.2 x ?_
      rw [hveq, List.getLast?_append, List.getLast?_cons_cons, hx]
      rfl
  · intro hnotall hnex
    simp only [cleanName]
    rw [if_neg (by intro hcon; rw [hnotall] at hcon; cases hcon.2)]
    have hstrip : stripLeadIndex (norm s) = norm s := by
      simp only [stripLeadIndex]
      by_cases hcond : (norm s).takeWhile isDigit ≠ [] ∧
          (((norm s).dropWhile isDigit).takeWhile jsWs ≠ [] ∧
            ((norm s).dropWhile isDigit).dropWhile jsWs ≠ [])
      · exfalso
        obtain ⟨hd, hw, hr⟩ := hcond
        cases hr2 : ((norm s).dropWhile isDigit).dropWhile jsWs with
        | nil => exact hr hr2
        | cons c rest =>
          refine hnex ⟨(norm s).takeWhile isDigit,
            ((norm s).dropWhile isDigit).takeWhile jsWs, c, rest, ?_, hd,
            fun x hx => List.mem_takeWhile_imp hx, hw,
            fun x hx => List.mem_takeWhile_imp hx, ?_⟩
          · rw [← hr2, List.append_assoc, List.takeWhile_append_dropWhile,
              List.takeWhile_append_dropWhile]
          · refine head?_dropWhile_eq_some (l := (norm s).dropWhile isDigit) ?_
            rw [hr2, List.head?_cons]
      · rw [if_neg (by
          intro hcon
          exact hcond ⟨hcon.1, hcon.2.1, hcon.2.2⟩)]
    rw [hstrip, jsTrim_eq_self (normed_norm s).2.2.1 (normed_norm s).2.2.2]

/-- Witness for C3 on the spec's round-trip examples. -/
theorem cleanName_spec_witness :
    cleanName "56".data = "56".data ∧ cleanName "5".data = "5".data ∧
    cleanName "5 Joe".data = "Joe".data ∧
    cleanName "56 Industries".data = "Industries".data :=
  ⟨((cleanName_spec "56".data).1 (by decide)).trans (by decide),
    ((cleanName_spec "5".data).1 (by decide)).trans (by decide),
    ((cleanName_spec "5 Joe".data).2.1 "5".data 'J' "oe".data
      (by decide) (by decide) (by decide) (by decide)).trans (by decide),
    ((cleanName_spec "56 Industries".data).2.1 "56".data 'I' "ndustries".data
      (by decide) (by decide) (by decide) (by decide)).trans (by decide)⟩

/-! ### Agreement of the two extraction strategies on well-formed chunks -/

/-- A well-formed name line `"<d1>. <d2>. <nm>"` in structured form. -/
structure GoodTriple where
  d1 : List Char
  d2 : List Char
  nm : List Char
  deriving DecidableEq, Repr

/-- Well-formedness: both indices are non-empty digit runs and the name is a
non-empty run of non-whitespace characters. -/
def goodT (t : GoodTriple) : Prop :=
  t.d1 ≠ [] ∧ (∀ x ∈ t.d1, isDigit x = true) ∧
  t.d2 ≠ [] ∧ (∀ x ∈ t.d2, isDigit x = true) ∧
  t.nm ≠ [] ∧ (∀ x ∈ t.nm, jsWs x = false)

def mkLine (t : GoodTriple) : List Char :=
  t.d1 ++ '.' :: ' ' :: (t.d2 ++ '.' :: ' ' :: t.nm)

def mkChunk (ts : List GoodTriple) : List Char :=
  joinNl (ts.map mkLine)

theorem dropWhile_cons_neg {p : α → Bool} {a : α} {l : List α}
    (h : p a = false) : (a :: l).dropWhile p = a :: l := by
  rw [List.dropWhile_cons, if_neg (by rw [h]; exact Bool.false_ne_true)]

theorem takeWhile_all {p : α → Bool} : ∀ {l : List α},
    (∀ x ∈ l, p x = true) → l.takeWhile p = l := by
  intro l
  induction l with
  | nil => intro _; rfl
  | cons a t ih =>
    intro h
    rw [List.takeWhile_cons, if_pos (h a (List.mem_cons_self _ _)),
      ih fun x hx => h x (List.mem_cons_of_mem _ hx)]

theorem dropWhile_append_all {p : α → Bool} : ∀ {w l : List α},
    (∀ x ∈ w, p x = true) → (w ++ l).dropWhile p = l.dropWhile p := by
  intro w
  induction w with
  | nil => intro l _; rfl
  | cons a w' ih =>
    intro l h
    rw [List.cons_append, List.dropWhile_cons, if_pos (h a (List.mem_cons_self _ _))]
    exact ih fun x hx => h x (List.mem_cons_of_mem _ hx)

/-- `\s*\d+\.` consumption on a well-formed prefix: optional whitespace,
then a digit run, then the dot. -/
theorem eatNumDot_ws_digits (w d rest : List Char)
    (hw : ∀ x ∈ w, jsWs x = true) (hdne : d ≠ [])
    (hdig : ∀ x ∈ d, isDigit x = true) :
    eatNumDot (w ++ (d ++ '.' :: rest)) = some rest := by
  obtain ⟨ht, hdp⟩ := takeWhile_append_of d (r := rest) hdig
    (by decide : isDigit '.' = false)
  have hdrop : (w ++ (d ++ '.' :: rest)).dropWhile jsWs = d ++ '.' :: rest := by
    rw [dropWhile_append_all hw]
    cases d with
    | nil => exact absurd rfl hdne
    | cons x d' =>
      rw [List.cons_append]
      exact dropWhile_cons_neg
        (not_ws_of_digit (hdig x (List.mem_cons_self _ _)))
  simp only [eatNumDot, hdrop, ht, hdp]
  rw [if_neg hdne]
  simp

/-- The newline character test used by the scanner line split. -/
theorem ne_nl_of_not_ws {x : Char} (h : jsWs x = false) :
    decide (x ≠ '\n') = true := by
  simp only [decide_eq_true_eq]
  rintro rfl
  cases h

/-- `tailMatch` on `' ' :: (nm ++ tail)` for a whitespace-free non-empty
`nm` and a `tail` that is either empty or a newline followed by a digit
line: the capture is `nm` and the match ends right before the newline. -/
theorem tailMatch_good {nm tail : List Char} (hnmne : nm ≠ [])
    (hnm : ∀ x ∈ nm, jsWs x = false)
    (htail : tail = [] ∨ ∃ c2 r2, tail = '\n' :: c2 :: r2 ∧ isDigit c2 = true) :
    tailMatch (' ' :: (nm ++ tail)) = some (nm, tail) := by
  have hdw : (' ' :: (nm ++ tail)).dropWhile jsWs = nm ++ tail := by
    have h1 : (' ' :: (nm ++ tail)) = [' '] ++ (nm ++ tail) := rfl
    rw [h1, dropWhile_append_all (by intro x hx; simp at hx; subst hx; decide)]
    cases nm with
    | nil => exact absurd rfl hnmne
    | cons x nm' =>
      rw [List.cons_append]
      exact dropWhile_cons_neg (hnm x (List.mem_cons_self _ _))
  have htk : (nm ++ tail).takeWhile (fun c => c ≠ '\n') = nm := by
    rcases htail with rfl | ⟨c2, r2, rfl, _⟩
    · rw [List.append_nil]
      exact takeWhile_all fun x hx => ne_nl_of_not_ws (hnm x hx)
    · exact (takeWhile_append_of nm (fun x hx => ne_nl_of_not_ws (hnm x hx))
        (by simp)).1
  have hne : nm ++ tail ≠ [] := by
    cases nm with
    | nil => exact absurd rfl hnmne
    | cons x nm' => simp
  rw [tailMatch, if_neg (by rw [hdw]; exact hne), hdw, htk,
    dropTrailingWs_eq_trimEnd,
    trimEnd_eq_self (normed_of_no_ws hnm).2.2.2, List.drop_left]
  rcases htail with rfl | ⟨c2, r2, rfl, hc2⟩
  · rfl
  · have hrun : ('\n' :: c2 :: r2).takeWhile jsWs = ['\n'] := by
      rw [List.takeWhile_cons, if_pos (by decide : jsWs '\n' = true),
        List.takeWhile_cons,
        if_neg (by rw [not_ws_of_digit hc2]; exact Bool.false_ne_true)]
    rw [restAfter, hrun]
    norm_num

theorem mkLine_append (t : GoodTriple) (tail : List Char) :
    mkLine t ++ tail =
      t.d1 ++ '.' :: ' ' :: (t.d2 ++ '.' :: ' ' :: (t.nm ++ tail)) := by
  simp [mkLine, List.append_assoc]

/-- A full pattern attempt on a well-formed line with a line-start tail:
the capture is the name and the remainder is the tail. -/
theorem tryLineMatch_good (t : GoodTriple) (ht : goodT t) (tail : List Char)
    (htail : tail = [] ∨ ∃ c2 r2, tail = '\n' :: c2 :: r2 ∧ isDigit c2 = true) :
    tryLineMatch (mkLine t ++ tail) = some (t.nm, tail) := by
  obtain ⟨hd1ne, hd1, hd2ne, hd2, hnmne, hnm⟩ := ht
  have he1 : eatNumDot (mkLine t ++ tail) =
      some (' ' :: (t.d2 ++ '.' :: ' ' :: (t.nm ++ tail))) := by
    rw [mkLine_append]
    have := eatNumDot_ws_digits [] t.d1
      (' ' :: (t.d2 ++ '.' :: ' ' :: (t.nm ++ tail)))
      (by intro x hx; cases hx) hd1ne hd1
    simpa using this
  have he2 : eatNumDot (' ' :: (t.d2 ++ '.' :: ' ' :: (t.nm ++ tail))) =
      some (' ' :: (t.nm ++ tail)) := by
    have h1 : (' ' :: (t.d2 ++ '.' :: ' ' :: (t.nm ++ tail))) =
        [' '] ++ (t.d2 ++ '.' :: (' ' :: (t.nm ++ tail))) := rfl
    rw [h1]
    exact eatNumDot_ws_digits [' '] t.d2 (' ' :: (t.nm ++ tail))
      (by intro x hx; simp at hx; subst hx; decide) hd2ne hd2
  rw [tryLineMatch]
  simp only [he1, he2]
  exact tailMatch_good hnmne hnm htail

theorem matchTwoNums_eq_tryLineMatch (line : List Char) :
    matchTwoNums line = (tryLineMatch line).map Prod.fst := by
  rw [matchTwoNums, tryLineMatch]
  cases h1 : eatNumDot line with
  | none => rfl
  | some l1 =>
    simp only []
    cases h2 : eatNumDot l1 with
    | none => simp [h2]
    | some l2 => simp [h2]

theorem scanCaptures_nil (fuel : Nat) : scanCaptures fuel [] = [] := by
  cases fuel <;> rfl

/-- `mkChunk (t :: rest)` always decomposes as the first line followed by a
(possibly empty) newline-led tail. -/
theorem mkChunk_cons (t : GoodTriple) (rest : List GoodTriple) :
    mkChunk (t :: rest) =
      mkLine t ++ (if rest = [] then [] else '\n' :: mkChunk rest) := by
  cases rest with
  | nil => simp [mkChunk, joinNl]
  | cons t2 r2 => simp [mkChunk, joinNl]

/-- The head of a well-formed chunk is a digit. -/
theorem mkChunk_cons_head (t : GoodTriple) (rest : List GoodTriple)
    (ht : goodT t) :
    ∃ c r, mkChunk (t :: rest) = c :: r ∧ isDigit c = true := by
  obtain ⟨hd1ne, hd1, _⟩ := ht
  rw [mkChunk_cons]
  cases hc : t.d1 with
  | nil => exact absurd hc hd1ne
  | cons x d1' =>
    refine ⟨x, (d1' ++ '.' :: ' ' :: (t.d2 ++ '.' :: ' ' :: t.nm)) ++
      (if rest = [] then [] else '\n' :: mkChunk rest), ?_,
      hd1 x (by rw [hc]; exact List.mem_cons_self _ _)⟩
    rw [mkLine, hc, List.cons_append, List.cons_append]

/-- The scan of a well-formed chunk yields exactly the names, in order. -/
theorem scanCaptures_good : ∀ (ts : List GoodTriple),
    (∀ x ∈ ts, goodT x) → ∀ fuel, ts.length ≤ fuel →
    scanCaptures fuel (mkChunk ts) = ts.map GoodTriple.nm := by
  intro ts
  induction ts with
  | nil =>
    intro _ fuel _
    rw [show mkChunk [] = [] from rfl, scanCaptures_nil]
    rfl
  | cons t rest ih =>
    intro h fuel hlen
    cases fuel with
    | zero => simp at hlen
    | succ f =>
      have ht := h t (List.mem_cons_self _ _)
      cases hr : rest with
      | nil =>
        subst hr
        have hmatch := tryLineMatch_good t ht [] (Or.inl rfl)
        rw [List.append_nil] at hmatch
        rw [mkChunk_cons, if_pos rfl, List.append_nil, scanCaptures]
        simp only [hmatch]
        simp [scanCaptures_nil]
      | cons t2 r2 =>
        subst hr
        obtain ⟨c2, r2', hc2eq, hc2⟩ := mkChunk_cons_head t2 r2
          (h t2 (List.mem_cons_of_mem _ (List.mem_cons_self _ _)))
        have hmatch := tryLineMatch_good t ht ('\n' :: mkChunk (t2 :: r2))
          (Or.inr ⟨c2, r2', by rw [hc2eq], hc2⟩)
        rw [mkChunk_cons, if_neg (by simp), scanCaptures]
        simp only [hmatch]
        rw [List.drop_succ_cons, List.drop_zero,
          ih (fun x hx => h x (List.mem_cons_of_mem _ hx)) f
            (by simp only [List.length_cons] at hlen ⊢; omega)]
        rfl

/-- Lines built by `mkLine` contain no newline. -/
theorem mkLine_no_nl {t : GoodTriple} (ht : goodT t) : '\n' ∉ mkLine t := by
  obtain ⟨_, hd1, _, hd2, _, hnm⟩ := ht
  intro hmem
  rw [mkLine] at hmem
  rcases List.mem_append.mp hmem with hm | hm
  · have := not_ws_of_digit (hd1 _ hm)
    rw [show jsWs '\n' = true from by decide] at this
    cases this
  · rcases List.mem_cons.mp hm with heq | hm2
    · cases heq
    · rcases List.mem_cons.mp hm2 with heq | hm3
      · cases heq
      · rcases List.mem_append.mp hm3 with hm4 | hm4
        · have := not_ws_of_digit (hd2 _ hm4)
          rw [show jsWs '\n' = true from by decide] at this
          cases this
        · rcases List.mem_cons.mp hm4 with heq | hm5
          · cases heq
          · rcases List.mem_cons.mp hm5 with heq | hm6
            · cases heq
            · have := hnm _ hm6
              rw [show jsWs '\n' = true from by decide] at this
              cases this

theorem splitOnNl_no_nl : ∀ {l : List Char}, '\n' ∉ l → splitOnNl l = [l] := by
  intro l
  induction l with
  | nil => intro _; rfl
  | cons c rest ih =>
    intro h
    rw [splitOnNl, if_neg (fun hc => h (by rw [hc]; exact List.mem_cons_self _ _)),
      ih fun hm => h (List.mem_cons_of_mem _ hm)]

theorem splitOnNl_append_nl : ∀ {l : List Char} (Y : List Char), '\n' ∉ l →
    splitOnNl (l ++ '\n' :: Y) = l :: splitOnNl Y := by
  intro l
  induction l with
  | nil =>
    intro Y _
    rw [List.nil_append, splitOnNl, if_pos rfl]
  | cons c rest ih =>
    intro Y h
    rw [List.cons_append, splitOnNl,
      if_neg (fun hc => h (by rw [hc]; exact List.mem_cons_self _ _)),
      ih Y fun hm => h (List.mem_cons_of_mem _ hm)]

theorem splitOnNl_joinNl : ∀ {ls : List (List Char)}, ls ≠ [] →
    (∀ l ∈ ls, '\n' ∉ l) → splitOnNl (joinNl ls) = ls := by
  intro ls
  induction ls with
  | nil => intro h _; exact absurd rfl h
  | cons l rest ih =>
    intro _ h
    cases rest with
    | nil =>
      rw [show joinNl [l] = l from rfl]
      exact splitOnNl_no_nl (h l (List.mem_cons_self _ _))
    | cons l2 r2 =>
      rw [show joinNl (l :: l2 :: r2) = l ++ '\n' :: joinNl (l2 :: r2) from rfl,
        splitOnNl_append_nl _ (h l (List.mem_cons_self _ _)),
        ih (by simp) fun x hx => h x (List.mem_cons_of_mem _ hx)]

theorem getLast?_cons_ne_nil {a : α} {l : List α} (h : l ≠ []) :
    (a :: l).getLast? = l.getLast? := by
  cases l with
  | nil => exact absurd rfl h
  | cons b t => exact List.getLast?_cons_cons

theorem getLast?_append_right {l₁ l₂ : List α} (h : l₂ ≠ []) :
    (l₁ ++ l₂).getLast? = l₂.getLast? := by
  rw [List.getLast?_append]
  cases hg : l₂.getLast? with
  | none => exact absurd (List.getLast?_eq_none_iff.mp hg) h
  | some y => rfl

/-- `norm` is the identity on a well-formed line. -/
theorem norm_mkLine {t : GoodTriple} (ht : goodT t) : norm (mkLine t) = mkLine t := by
  obtain ⟨hd1ne, hd1, hd2ne, hd2, hnmne, hnm⟩ := ht
  have hchars : ∀ c ∈ mkLine t, c ≠ '\r' ∧ isNbsp c = false ∧ c ≠ '\t' := by
    intro c hc
    rw [mkLine] at hc
    rcases List.mem_append.mp hc with hm | hm
    · exact char_clean_of_not_ws (not_ws_of_digit (hd1 _ hm))
    · rcases List.mem_cons.mp hm with rfl | hm2
      · refine ⟨by decide, by decide, by decide⟩
      · rcases List.mem_cons.mp hm2 with rfl | hm3
        · refine ⟨by decide, by decide, by decide⟩
        · rcases List.mem_append.mp hm3 with hm4 | hm4
          · exact char_clean_of_not_ws (not_ws_of_digit (hd2 _ hm4))
          · rcases List.mem_cons.mp hm4 with rfl | hm5
            · refine ⟨by decide, by decide, by decide⟩
            · rcases List.mem_cons.mp hm5 with rfl | hm6
              · refine ⟨by decide, by decide, by decide⟩
              · exact char_clean_of_not_ws (hnm _ hm6)
  have hchain : List.Chain' sepRel (mkLine t) := by
    rw [mkLine, List.chain'_append]
    refine ⟨chain'_of_no_spaceTab
        (fun x hx => not_spaceTab_of_not_ws (not_ws_of_digit (hd1 _ hx))), ?_, ?_⟩
    · rw [List.chain'_cons']
      refine ⟨fun y hy => Or.inl (by decide), ?_⟩
      rw [List.chain'_cons']
      refine ⟨?_, ?_⟩
      · intro y hy
        cases hd2c : t.d2 with
        | nil => exact absurd hd2c hd2ne
        | cons x d2' =>
          rw [hd2c, List.cons_append, List.head?_cons, Option.mem_def,
            Option.some.injEq] at hy
          refine Or.inr ?_
          rw [← hy]
          exact not_spaceTab_of_not_ws
            (not_ws_of_digit (hd2 x (hd2c ▸ List.mem_cons_self _ _)))
      · rw [List.chain'_append]
        refine ⟨chain'_of_no_spaceTab
            (fun x hx => not_spaceTab_of_not_ws (not_ws_of_digit (hd2 _ hx))),
          ?_, ?_⟩
        · rw [List.chain'_cons']
          refine ⟨fun y hy => Or.inl (by decide), ?_⟩
          rw [List.chain'_cons']
          refine ⟨?_, chain'_of_no_spaceTab
            (fun x hx => not_spaceTab_of_not_ws (hnm _ hx))⟩
          intro y hy
          cases hnmc : t.nm with
          | nil => exact absurd hnmc hnmne
          | cons x nm' =>
            rw [hnmc, List.head?_cons, Option.mem_def, Option.some.injEq] at hy
            refine Or.inr ?_
            rw [← hy]
            exact not_spaceTab_of_not_ws (hnm x (hnmc ▸ List.mem_cons_self _ _))
        · intro x _ y hy
          rw [List.head?_cons, Option.mem_def, Option.some.injEq] at hy
          refine Or.inr ?_
          rw [← hy]
          decide
    · intro x _ y hy
      rw [List.head?_cons, Option.mem_def, Option.some.injEq] at hy
      refine Or.inr ?_
      rw [← hy]
      decide
  refine norm_eq_self_of_normed ⟨hchars, hchain, ?_, ?_⟩
  · intro c hc
    cases hd1c : t.d1 with
    | nil => exact absurd hd1c hd1ne
    | cons x d1' =>
      rw [mkLine, hd1c, List.cons_append, List.head?_cons,
        Option.some.injEq] at hc
      rw [← hc]
      exact not_ws_of_digit (hd1 x (hd1c ▸ List.mem_cons_self _ _))
  · intro c hc
    have h2 : ('.' :: ' ' :: (t.d2 ++ '.' :: ' ' :: t.nm)).getLast? =
        t.nm.getLast? := by
      rw [getLast?_cons_ne_nil (by simp),
        getLast?_cons_ne_nil (by simp),
        getLast?_append_right (by simp),
        getLast?_cons_ne_nil (by simp),
        getLast?_cons_ne_nil hnmne]
    rw [mkLine, List.getLast?_append, h2] at hc
    cases hg : t.nm.getLast? with
    | none => exact absurd (List.getLast?_eq_none_iff.mp hg) hnmne
    | some y =>
      rw [hg] at hc
      have hyc : y = c := by simpa using hc
      subst hyc
      exact hnm y (List.mem_of_getLast?_eq_some hg)

theorem mkLine_ne_nil {t : GoodTriple} (ht : goodT t) : mkLine t ≠ [] := by
  obtain ⟨hd1ne, _⟩ := ht
  cases hc : t.d1 with
  | nil => exact absurd hc hd1ne
  | cons x d1' =>
    rw [mkLine, hc, List.cons_append]
    simp

/-- A well-formed line yields exactly its name under `namesOfLine`. -/
theorem namesOfLine_good {t : GoodTriple} (ht : goodT t) :
    namesOfLine (mkLine t) = [t.nm] := by
  have hm2 : matchTwoNums (mkLine t) = some t.nm := by
    rw [matchTwoNums_eq_tryLineMatch,
      show mkLine t = mkLine t ++ [] from (List.append_nil _).symm,
      tryLineMatch_good t ht [] (Or.inl rfl)]
    rfl
  rw [namesOfLine]
  simp only [hm2]
  rw [cleanName_of_no_ws ht.2.2.2.2.2, if_pos ht.2.2.2.2.1]

theorem namesOfLines_good : ∀ (ts : List GoodTriple), (∀ x ∈ ts, goodT x) →
    namesOfLines (ts.map mkLine) = ts.map GoodTriple.nm := by
  intro ts
  induction ts with
  | nil => intro _; rfl
  | cons t rest ih =>
    intro h
    rw [List.map_cons, namesOfLines, namesOfLine_good (h t (List.mem_cons_self _ _)),
      ih fun x hx => h x (List.mem_cons_of_mem _ hx)]
    rfl

/-- The markup-mode extractor on a well-formed chunk yields exactly the
names, in order. -/
theorem extractNames_good : ∀ (ts : List GoodTriple),
    (∀ x ∈ ts, goodT x) →
    extractNamesFromChunk (mkChunk ts) = ts.map GoodTriple.nm := by
  intro ts h
  cases ts with
  | nil => rfl
  | cons t rest =>
    have hchunk_ne : mkChunk (t :: rest) ≠ [] := by
      obtain ⟨c, r, heq, _⟩ := mkChunk_cons_head t rest (h t (List.mem_cons_self _ _))
      rw [heq]
      simp
    rw [extractNamesFromChunk, if_neg hchunk_ne, mkChunk,
      splitOnNl_joinNl (by simp) (by
        intro l hl
        rcases List.mem_map.mp hl with ⟨x, hx, rfl⟩
        exact mkLine_no_nl (h x hx))]
    have hmapnorm : ((t :: rest).map mkLine).map norm = (t :: rest).map mkLine := by
      refine map_eq_self_of ?_
      intro l hl
      rcases List.mem_map.mp hl with ⟨x, hx, rfl⟩
      exact norm_mkLine (h x hx)
    rw [hmapnorm,
      List.filter_eq_self.mpr (by
        intro l hl
        rcases List.mem_map.mp hl with ⟨x, hx, rfl⟩
        exact decide_eq_true (mkLine_ne_nil (h x hx)))]
    exact namesOfLines_good _ h

instance : DecidablePred goodT := fun t =>
  decidable_of_iff (t.d1 ≠ [] ∧ (∀ x ∈ t.d1, isDigit x = true) ∧
    t.d2 ≠ [] ∧ (∀ x ∈ t.d2, isDigit x = true) ∧
    t.nm ≠ [] ∧ (∀ x ∈ t.nm, jsWs x = false)) Iff.rfl

theorem length_le_mkChunk : ∀ ts : List GoodTriple,
    ts.length ≤ (mkChunk ts).length + 1 := by
  intro ts
  induction ts with
  | nil => simp [mkChunk, joinNl]
  | cons t rest ih =>
    cases rest with
    | nil => simp
    | cons t2 r2 =>
      rw [mkChunk_cons, if_neg (by simp)]
      simp only [List.length_append, List.length_cons] at ih ⊢
      omega

theorem filterMap_norm_map : ∀ (ts : List GoodTriple), (∀ x ∈ ts, goodT x) →
    (ts.map GoodTriple.nm).filterMap
      (fun cap => if cap = [] then none else some (norm cap)) =
    ts.map GoodTriple.nm := by
  intro ts
  induction ts with
  | nil => intro _; rfl
  | cons t rest ih =>
    intro h
    have ht := h t (List.mem_cons_self _ _)
    rw [List.map_cons, List.filterMap_cons, if_neg ht.2.2.2.2.1,
      norm_of_no_ws ht.2.2.2.2.2,
      ih fun x hx => h x (List.mem_cons_of_mem _ hx)]

theorem textNames_good (ts : List GoodTriple) (h : ∀ x ∈ ts, goodT x) :
    textNamesOfChunk (mkChunk ts) = ts.map GoodTriple.nm := by
  rw [textNamesOfChunk, scanCaptures_good ts h _ (length_le_mkChunk ts)]
  exact filterMap_norm_map ts h

/-- C2 (amended): the markup-mode and text-mode name extractors agree —
both producing exactly the name list — on every chunk consisting solely of
well-formed `"<i>. <j>. <name>"` lines with whitespace-free names; on
general chunks they differ, because text mode applies only the
two-leading-integer pattern and normalizes captures without name-cleaning,
with no single-integer fallback and no heading-fragment exclusion. -/
theorem extractors_agree (ts : List GoodTriple) (h : ∀ x ∈ ts, goodT x) :
    textNamesOfChunk (mkChunk ts) = extractNamesFromChunk (mkChunk ts) ∧
    extractNamesFromChunk (mkChunk ts) = ts.map GoodTriple.nm := by
  have h1 := extractNames_good ts h
  have h2 := textNames_good ts h
  exact ⟨h2.trans h1.symm, h1⟩

/-- Counterexample for C2 as stated: on the chunk `"1. Joe"` markup mode
extracts the name via the single-integer fallback while text mode extracts
nothing, and on `"1. 2. 5 Joe"` markup mode cleans the capture while text
mode does not — so the two strategies do not produce identical name lists
from chunks with identical text content. -/
theorem extractors_differ_cex :
    extractNamesFromChunk "1. Joe".data = ["Joe".data] ∧
    textNamesOfChunk "1. Joe".data = [] ∧
    extractNamesFromChunk "1. 2. 5 Joe".data = ["Joe".data] ∧
    textNamesOfChunk "1. 2. 5 Joe".data = ["5 Joe".data] :=
  ⟨by decide, by decide, by decide, by decide⟩

/-- Witness for the amended C2 on the spec's scenario chunk
`"1. 1. Alice\n1. 2. Bob"`. -/
theorem extractors_agree_witness :
    textNamesOfChunk (mkChunk [⟨"1".data, "1".data, "Alice".data⟩,
        ⟨"1".data, "2".data, "Bob".data⟩]) =
      extractNamesFromChunk (mkChunk [⟨"1".data, "1".data, "Alice".data⟩,
        ⟨"1".data, "2".data, "Bob".data⟩]) ∧
    extractNamesFromChunk (mkChunk [⟨"1".data, "1".data, "Alice".data⟩,
        ⟨"1".data, "2".data, "Bob".data⟩]) =
      ([⟨"1".data, "1".data, "Alice".data⟩,
        ⟨"1".data, "2".data, "Bob".data⟩] : List GoodTriple).map GoodTriple.nm :=
  extractors_agree [⟨"1".data, "1".data, "Alice".data⟩,
    ⟨"1".data, "2".data, "Bob".data⟩] (by decide)

/-- The last `n` elements of a list, in original order (the specification's
description of a bottom entry's contents). -/
def lastN (n : Nat) (l : List α) : List α :=
  (l.reverse.take n).reverse

theorem lastN_eq_drop : ∀ (l : List α) (n : Nat),
    lastN n l = l.drop (l.length - n) := by
  intro l
  induction l with
  | nil => intro n; simp [lastN]
  | cons a t ih =>
    intro n
    rw [lastN, List.reverse_cons]
    by_cases h : n ≤ t.length
    · rw [List.take_append_of_le_length (by simpa using h)]
      have hdrop : (a :: t).length - n = (t.length - n) + 1 := by
        simp only [List.length_cons]; omega
      rw [hdrop, List.drop_succ_cons, ← ih n]
      rfl
    · rw [List.take_of_length_le (by simp; omega)]
      have hdrop : (a :: t).length - n = 0 := by
        simp only [List.length_cons]; omega
      rw [hdrop, List.drop_zero]
      simp

theorem map_congr_mem {f g : α → β} : ∀ {l : List α},
    (∀ a ∈ l, f a = g a) → l.map f = l.map g := by
  intro l
  induction l with
  | nil => intro _; rfl
  | cons a t ih =>
    intro h
    rw [List.map_cons, List.map_cons, h a (List.mem_cons_self _ _),
      ih fun c hc => h c (List.mem_cons_of_mem _ hc)]

theorem twoListsPairs_eq_map (bc : Nat) : ∀ rounds : List Round,
    twoListsPairs bc rounds = (rounds.filter (fun r => r.names ≠ [])).map
      (fun r => (natStr r.round ++ '.' :: ' ' :: r.names.headD [],
        natStr r.round ++ '.' :: ' ' ::
          joinComma (jsSliceLast (min bc r.names.length) r.names))) := by
  intro rounds
  induction rounds with
  | nil => rfl
  | cons r rest ih =>
    rw [twoListsPairs, List.filter_cons]
    by_cases h : r.names = []
    · rw [if_pos h, if_neg (by simp [h]), ih]
    · rw [if_neg h, if_pos (by simp [h]), List.map_cons, ih]

/-- C8: for every round collection and valid integer `bottomCount ≥ 1`,
each bottom entry is `"<round>. <joined>"` where `<joined>` joins, with
`", "`, the last `min(bottomCount, names.length)` names of the round in
original order; in particular no bottom entry draws more names than
`min(bottomCount, roundNameCount)`. -/
theorem buildTwoLists_bottom (rounds : List Round) (bc : ℚ)
    (hbc : bc.den = 1 ∧ 1 ≤ bc) :
    ∃ lists, buildTwoLists rounds bc = .ok lists ∧
      lists.bottomList = (rounds.filter (fun r => r.names ≠ [])).map
        (fun r => natStr r.round ++ '.' :: ' ' ::
          joinComma (lastN (min bc.num.toNat r.names.length) r.names)) ∧
      ∀ r ∈ rounds,
        (lastN (min bc.num.toNat r.names.length) r.names).length ≤
          min bc.num.toNat r.names.length := by
  have hnum : 1 ≤ bc.num := by
    have hcast := (Rat.den_eq_one_iff bc).mp hbc.1
    rw [← hcast] at hbc
    exact_mod_cast hbc.2
  have hbcN : 1 ≤ bc.num.toNat := by omega
  refine ⟨⟨(twoListsPairs bc.num.toNat rounds).map Prod.fst,
    (twoListsPairs bc.num.toNat rounds).map Prod.snd⟩, ?_, ?_, ?_⟩
  · rw [buildTwoLists, if_neg (not_not_intro hbc)]
  · show (twoListsPairs bc.num.toNat rounds).map Prod.snd = _
    rw [twoListsPairs_eq_map, List.map_map]
    refine map_congr_mem ?_
    intro r hr
    have hne : r.names ≠ [] := by
      have := (List.mem_filter.mp hr).2
      simpa using this
    have hmin : min bc.num.toNat r.names.length ≠ 0 := by
      have : 0 < r.names.length := List.length_pos.mpr hne
      have := Nat.le_min.mpr ⟨hbcN, this⟩
      omega
    simp only [Function.comp]
    rw [jsSliceLast, if_neg hmin, ← lastN_eq_drop]
  · intro r _
    rw [lastN]
    simp only [List.length_reverse, List.length_take]
    exact Nat.min_le_left _ _

/-- Witness for C8 at the spec's scenario rounds with `bottomCount = 1`. -/
theorem buildTwoLists_bottom_witness :
    ∃ lists,
      buildTwoLists [Round.mk 1 ["Alice".data, "Bob".data],
        Round.mk 2 ["Carol".data]] 1 = .ok lists ∧
      lists.bottomList =
        (([Round.mk 1 ["Alice".data, "Bob".data],
            Round.mk 2 ["Carol".data]]).filter (fun r => r.names ≠ [])).map
          (fun r => natStr r.round ++ '.' :: ' ' ::
            joinComma (lastN (min (1 : ℚ).num.toNat r.names.length) r.names)) ∧
      ∀ r ∈ [Round.mk 1 ["Alice".data, "Bob".data], Round.mk 2 ["Carol".data]],
        (lastN (min (1 : ℚ).num.toNat r.names.length) r.names).length ≤
          min (1 : ℚ).num.toNat r.names.length :=
  buildTwoLists_bottom
    [Round.mk 1 ["Alice".data, "Bob".data], Round.mk 2 ["Carol".data]] 1
    ⟨by norm_num, by norm_num⟩

/-- C1 (amended): for every collection returned by `extractRounds`,
`buildSpotCountsFromRound1` counts exactly one round — the round numbered 1
when present, otherwise the first round of the sorted collection, which is a
round of minimal round number (not the first round in raw discovery
order). -/
theorem spotCounts_selection (d : Doc) (rs : List Round)
    (h : extractRounds d = .ok rs) :
    ∃ r ∈ rs, spotRound rs = some r ∧
      buildSpotCountsFromRound1 rs = countNames r.names ∧
      (r.round = 1 ∨
        ((∀ r' ∈ rs, r'.round ≠ 1) ∧ ∀ r' ∈ rs, r.round ≤ r'.round)) := by
  obtain ⟨hne, hsorted⟩ := extractRounds_ok_sorted h
  cases hf : rs.find? (fun r => r.round = 1) with
  | some r1 =>
    refine ⟨r1, List.mem_of_find?_eq_some hf, ?_, ?_, Or.inl ?_⟩
    · simp only [spotRound, hf]
    · simp only [buildSpotCountsFromRound1, spotRound, hf]
    · exact of_decide_eq_true
        (List.find?_some (p := fun r : Round => decide (r.round = 1)) hf)
  | none =>
    cases rs with
    | nil => exact absurd rfl hne
    | cons r rest =>
      refine ⟨r, List.mem_cons_self _ _, ?_, ?_, Or.inr ⟨?_, ?_⟩⟩
      · simp only [spotRound, hf]
      · simp only [buildSpotCountsFromRound1, spotRound, hf]
      · intro r' hr' hc
        exact absurd (decide_eq_true hc) (by simpa using List.find?_eq_none.mp hf r' hr')
      · intro r' hr'
        rcases List.mem_cons.mp hr' with rfl | hr''
        · exact Nat.le_refl _
        · exact (List.sorted_cons.mp hsorted).1 r' hr''

/-- Counterexample for C1 as stated: in a document whose rounds are
discovered in the order 3, 2 (and with no round numbered 1), the raw parse
order is `[round 3, round 2]`, yet the spot counts are built from round 2 —
the first round of the *sorted* collection — and differ from the counts of
the first-discovered round 3. -/
theorem spotCounts_discovery_cex :
    extractRounds ⟨[⟨true, true, "Result of Round #3".data⟩,
        ⟨true, true, "1. 2. Alice".data⟩,
        ⟨true, true, "Result of Round #2".data⟩,
        ⟨true, true, "1. 2. Bob".data⟩]⟩ =
      .ok [⟨2, ["Bob".data]⟩, ⟨3, ["Alice".data]⟩] ∧
    rawRoundsMarkup ⟨[⟨true, true, "Result of Round #3".data⟩,
        ⟨true, true, "1. 2. Alice".data⟩,
        ⟨true, true, "Result of Round #2".data⟩,
        ⟨true, true, "1. 2. Bob".data⟩]⟩ =
      [⟨3, ["Alice".data]⟩, ⟨2, ["Bob".data]⟩] ∧
    buildSpotCountsFromRound1 [⟨2, ["Bob".data]⟩, ⟨3, ["Alice".data]⟩] =
      [("Bob".data, 1)] ∧
    countNames ["Alice".data] ≠ [("Bob".data, 1)] :=
  ⟨by decide, by decide, by decide, by decide⟩

/-- Witness for the amended C1 at a concrete sorted collection. -/
theorem spotCounts_selection_witness :
    ∃ r ∈ [Round.mk 2 ["Bob".data], Round.mk 3 ["Alice".data]],
      spotRound [Round.mk 2 ["Bob".data], Round.mk 3 ["Alice".data]] = some r ∧
      buildSpotCountsFromRound1 [Round.mk 2 ["Bob".data], Round.mk 3 ["Alice".data]] =
        countNames r.names ∧
      (r.round = 1 ∨
        ((∀ r' ∈ [Round.mk 2 ["Bob".data], Round.mk 3 ["Alice".data]], r'.round ≠ 1) ∧
          ∀ r' ∈ [Round.mk 2 ["Bob".data], Round.mk 3 ["Alice".data]],
            r.round ≤ r'.round)) :=
  spotCounts_selection ⟨[⟨true, true, "Result of Round #3".data⟩,
      ⟨true, true, "1. 2. Alice".data⟩,
      ⟨true, true, "Result of Round #2".data⟩,
      ⟨true, true, "1. 2. Bob".data⟩]⟩
    [Round.mk 2 ["Bob".data], Round.mk 3 ["Alice".data]] (by decide)

/-- Witness for C4: the spec's scenario document succeeds with two rounds. -/
theorem extractRounds_success_witness :
    rawRoundsMarkup ⟨[⟨true, true, "Result of Round #1".data⟩,
        ⟨true, true, "1. 1. Alice".data⟩, ⟨true, true, "1. 2. Bob".data⟩,
        ⟨true, true, "Result of Round #2".data⟩,
        ⟨true, true, "1. 1. Carol".data⟩]⟩ ≠ [] ∧
    ∃ rs, extractRounds ⟨[⟨true, true, "Result of Round #1".data⟩,
        ⟨true, true, "1. 1. Alice".data⟩, ⟨true, true, "1. 2. Bob".data⟩,
        ⟨true, true, "Result of Round #2".data⟩,
        ⟨true, true, "1. 1. Carol".data⟩]⟩ = .ok rs ∧ rs ≠ [] ∧
      List.Sorted (fun a b : Round => a.round ≤ b.round) rs ∧
      ∀ r ∈ rs, r.names ≠ [] :=
  ⟨by decide,
    extractRounds_success ⟨[⟨true, true, "Result of Round #1".data⟩,
        ⟨true, true, "1. 1. Alice".data⟩, ⟨true, true, "1. 2. Bob".data⟩,
        ⟨true, true, "Result of Round #2".data⟩,
        ⟨true, true, "1. 1. Carol".data⟩]⟩ (Or.inl (by decide))⟩

end FBG
